import Mathlib

/-! Letta memory injection middleware (`internal/letta/letta.go`).

A shallow embedding of the memory-injection pipeline: the memory formatter,
the truncation helper, the message extractors, the request injector, the
response capture and the interception middleware.  `cmd/letta-server/main.go`
carries a second copy of the same functions; the definitions follow
`internal/letta/letta.go`, and the two copies differ only in names, log
prefixes and the fetch URL.

Go strings that are only compared and concatenated are Lean `String`s.  Where
the code measures and slices a string by bytes (`truncate`), the string is the
list of its UTF-8 bytes.
-/

namespace Letta

/-! ## Memory blocks and the formatter -/

/-- A Letta memory block (`type MemoryBlock struct`). -/
structure MemoryBlock where
  Label : String
  Value : String
  deriving Repr, DecidableEq

/-- The text `fmt.Sprintf("[%s]\n%s\n\n", block.Label, block.Value)`. -/
def sprintfBlock (block : MemoryBlock) : String :=
  "[" ++ block.Label ++ "]\n" ++ block.Value ++ "\n\n"

/-- One turn of the `for _, block := range blocks` loop of
`FormatMemoryForInjection`: the builder `sb` after the block is visited. -/
def formatStep (sb : String) (block : MemoryBlock) : String :=
  if block.Value != "" then sb ++ sprintfBlock block else sb

/-- The function `FormatMemoryForInjection` formats memory blocks for system
prompt injection.  The `strings.Builder` is the accumulator of the fold. -/
def FormatMemoryForInjection (blocks : List MemoryBlock) : String :=
  if blocks.length = 0 then ""
  else
    let sb := ""
    let sb := sb ++ "\n\n--- Agent Memory Context ---\n"
    let sb := sb ++
      "The following is context from your persistent memory. Use it to maintain continuity:\n\n"
    let sb := blocks.foldl formatStep sb
    let sb := sb ++ "--- End Memory Context ---\n"
    sb

/-! ## Truncation -/

/-- A Go string as the code of `truncate` sees it: a sequence of bytes. -/
abbrev Bytes := List UInt8

/-- The bytes of a Go string holding the text `s` (its UTF-8 encoding). -/
def goBytes (s : String) : Bytes :=
  s.data.flatMap String.utf8EncodeChar

/-- The function `truncate(s, maxLen)`.  `len(s)` is the number of bytes of
`s` and `s[:maxLen]` its first `maxLen` bytes.  `maxLen` is an `int`; the
callers pass 500 and 1000, and a negative bound (for which the slice
expression panics) is left out of the model. -/
def truncate (s : Bytes) (maxLen : Nat) : Bytes :=
  if s.length ≤ maxLen then s
  else s.take maxLen ++ goBytes "..."

/-! ## JSON documents, as gjson and sjson see them

`github.com/tidwall/gjson` and `github.com/tidwall/sjson` are libraries from
outside the repository.  They are modelled on the JSON document a body
encodes: insignificant white space and the byte layout of the body are not
represented.  The raw text gjson returns for a value that is not a string
and the formatting of a float64 are taken as parameters (`raw`, `float64`
below); the round trip of a message through Go values is `goMarshalValue`.
-/

/-- A JSON value.  A number keeps its literal (a JSON number, as written in
the body); an object is the list of its members in the order of the body (a
key may occur more than once). -/
inductive JSON where
  | null : JSON
  | bool (b : Bool) : JSON
  | num (lit : String) : JSON
  | str (s : String) : JSON
  | arr (elems : List JSON) : JSON
  | obj (members : List (String × JSON)) : JSON
  deriving Repr, Inhabited

/-- One component of a gjson/sjson path: `key k` is a name written in the
path, `idx i` a number formatted with `%d`. -/
inductive Seg where
  | key (k : String) : Seg
  | idx (i : Nat) : Seg
  deriving Repr, DecidableEq

/-- The text of a path component. -/
def Seg.name : Seg → String
  | .key k => k
  | .idx i => toString i

/-- The first member of an object with the given key: gjson returns the first
match. -/
def lookupMember (k : String) : List (String × JSON) → Option JSON
  | [] => none
  | (k', v) :: rest => if k' == k then some v else lookupMember k rest

/-- One step of a gjson path inside a value.  In an object the component
names a member; in an array a number selects the element at that index and a
name written in the paths of this program matches nothing; other values have no
children. -/
def JSON.child (v : JSON) (seg : Seg) : Option JSON :=
  match v, seg with
  | .obj members, seg => lookupMember seg.name members
  | .arr elems, .idx i => elems[i]?
  | _, _ => none

/-- The gjson `Result` of a query: the value found, or `none` when the path
does not exist. -/
abbrev Result := Option JSON

/-- The method `Result.Get(path)` for a path of plain components. -/
def Result.Get (r : Result) : List Seg → Result
  | [] => r
  | seg :: rest => Result.Get (r.bind (fun v => v.child seg)) rest

/-- The method `Result.IsArray()`. -/
def Result.IsArray : Result → Bool
  | some (.arr _) => true
  | _ => false

/-- The method `Result.Array()`, called in this program only where
`IsArray()` holds.  On a value that is not an array gjson returns the value
alone, and nothing for null or a missing value. -/
def Result.Array : Result → List JSON
  | some (.arr elems) => elems
  | some .null => []
  | some v => [v]
  | none => []

/-- The method `Result.String()`.  A string gives its text, null and a missing
value the empty string, a boolean its name.  For a number, an array or an
object gjson returns text taken from the raw body (or a float formatting of
the number): that text is the parameter `raw`. -/
def Result.String (raw : JSON → String) : Result → String
  | none => ""
  | some .null => ""
  | some (.bool true) => "true"
  | some (.bool false) => "false"
  | some (.str s) => s
  | some v => raw v

/-- Replaces the value of the first member with key `k`. -/
def replaceMember (k : String) (v : JSON) : List (String × JSON) → List (String × JSON)
  | [] => []
  | (k', v') :: rest =>
    if k' == k then (k', v) :: rest else (k', v') :: replaceMember k v rest

/-- Puts `new` where `v.child seg` stands. -/
def JSON.replaceChild (v : JSON) (seg : Seg) (new : JSON) : JSON :=
  match v, seg with
  | .obj members, seg => .obj (replaceMember seg.name new members)
  | .arr elems, .idx i => .arr (elems.set i new)
  | v, _ => v

/-- The sjson set of a component that gjson does not find in `v`: a last
component missing from an object is appended as a new member at the end of
the object.  The other shapes (a container that has to be created, an index
past the end of an array, a name inside an array) are not reached by this
program, which sets only below values it has just read; they give `none`,
the model of a failed set. -/
def JSON.setMissing (v : JSON) (seg : Seg) (rest : List Seg) (value : JSON) : Option JSON :=
  match v, rest with
  | .obj members, [] => some (.obj (members ++ [(seg.name, value)]))
  | _, _ => none

/-- The sjson set of `value` at `path` inside `v`: where the next component
exists (gjson finds it) the set goes on inside it and the result is spliced
back in its place; otherwise see `JSON.setMissing`. -/
def JSON.setPath : JSON → List Seg → JSON → Option JSON
  | _, [], value => some value
  | v, seg :: rest, value =>
    match v.child seg with
    | some c => (JSON.setPath c rest value).map (v.replaceChild seg)
    | none => v.setMissing seg rest value

/-- The bytes of a request or response body, as far as gjson and sjson tell
them apart.  `json doc` is a body that is valid JSON and encodes the document
`doc`.  `malformed doc` is a body that is not valid JSON but in which gjson,
which does not validate, still finds values (a document cut short or followed
by stray bytes): `doc` holds what gjson reads there, and sjson splices its
changes into the same bytes, which stay invalid.  `text bytes` is a body in
which gjson finds no value at all (an empty body, plain text), kept as its
bytes. -/
inductive Body where
  | json (doc : JSON) : Body
  | malformed (doc : JSON) : Body
  | text (bytes : Bytes) : Body
  deriving Repr, Inhabited

/-- The function `gjson.GetBytes(body, path)`. -/
def gjsonGetBytes (body : Body) (path : List Seg) : Result :=
  match body with
  | .json doc => Result.Get (some doc) path
  | .malformed doc => Result.Get (some doc) path
  | .text _ => none

/-- The function `sjson.SetBytes(body, path, value)`, with `none` for the nil
slice that comes with an error.  The path is never empty in this program.
The value set is valid JSON (a Go string or the output of `json.Marshal`), so
the result is valid JSON exactly when the body was. -/
def sjsonSetBytes (body : Body) (path : List Seg) (value : JSON) : Option Body :=
  match body with
  | .json doc => (doc.setPath path value).map Body.json
  | .malformed doc => (doc.setPath path value).map Body.malformed
  | .text _ => none

/-- Whether the body is syntactically valid JSON. -/
def Body.isValidJSON : Body → Bool
  | .json _ => true
  | .malformed _ => false
  | .text _ => false

/-- The two ways in which a body holds a document that gjson reads. -/
def IsDocBody (wrap : JSON → Body) : Prop :=
  wrap = Body.json ∨ wrap = Body.malformed

/-! ## The round trip of a message through Go values

In the branch that prepends a system message every existing message is turned
into Go values (`msg.Value()`: maps, slices, `float64`, strings) and written
again by the `json.Marshal` that `sjson.SetBytes` runs on `newMessages`.
-/

/-- The order in which `json.Marshal` writes the keys of a map: the order of
the strings, character by character. -/
def keyLess : List Char → List Char → Bool
  | [], [] => false
  | [], _ :: _ => true
  | _ :: _, [] => false
  | a :: as, b :: bs => a.toNat < b.toNat || (a.toNat == b.toNat && keyLess as bs)

/-- Inserts a member into a list of members sorted by key. -/
def insertMember (p : String × JSON) : List (String × JSON) → List (String × JSON)
  | [] => [p]
  | q :: rest =>
    if keyLess p.1.data q.1.data then p :: q :: rest else q :: insertMember p rest

/-- The members of a map in the order in which `json.Marshal` writes them. -/
def sortMembers : List (String × JSON) → List (String × JSON)
  | [] => []
  | p :: rest => insertMember p (sortMembers rest)

/-- The decimal value of a list of digits. -/
def digitsValue (ds : List Char) : Nat :=
  ds.foldl (fun n c => 10 * n + (c.toNat - 48)) 0

/-- Number literals of the shape `1e999`: one digit from 1 to 9, an `e`, and
an exponent of at least 309.  Their value is beyond the largest `float64`
(about 1.8e308): `strconv.ParseFloat` reads them as infinity, and
`json.Marshal` refuses an infinite float. -/
def overflowsFloat64 (lit : String) : Bool :=
  match lit.data with
  | d :: e :: exp =>
    decide (49 ≤ d.toNat ∧ d.toNat ≤ 57) && (e == 'e' || e == 'E') && !exp.isEmpty &&
      exp.all Char.isDigit && decide (309 ≤ digitsValue exp)
  | _ => false

/-- The text `json.Marshal` writes for the `float64` that `strconv.ParseFloat`
reads in a number literal, `none` when the encoding fails.  A literal that
overflows has no encoding; what is written for the other literals is floating
point arithmetic and is the parameter `other`. -/
def float64Text (other : String → Option String) (lit : String) : Option String :=
  if overflowsFloat64 lit then none else other lit

mutual
/-- The value `msg.Value()` written again by `json.Marshal`, `none` when the
encoding fails: a number goes through `float64` (the parameter), an array
keeps its order, and an object becomes a map, in which gjson keeps the first
value of a key that occurs twice, written with its keys sorted. -/
def goMarshalValue (float64 : String → Option String) : JSON → Option JSON
  | .null => some .null
  | .bool b => some (.bool b)
  | .num lit => (float64 lit).map JSON.num
  | .str s => some (.str s)
  | .arr elems => (goMarshalList float64 elems).map JSON.arr
  | .obj members =>
    (goMarshalMembers float64 [] members).map (fun ms => JSON.obj (sortMembers ms))
/-- The elements of an array, each written again; all of them have to be
encoded. -/
def goMarshalList (float64 : String → Option String) : List JSON → Option (List JSON)
  | [] => some []
  | v :: rest =>
    match goMarshalValue float64 v, goMarshalList float64 rest with
    | some v2, some rest2 => some (v2 :: rest2)
    | _, _ => none
/-- The entries of the map built from the members of an object, in the order
of the body: a member whose key has been `seen` is left out, the others are
written again. -/
def goMarshalMembers (float64 : String → Option String) (seen : List String) :
    List (String × JSON) → Option (List (String × JSON))
  | [] => some []
  | (k, v) :: rest =>
    if seen.contains k then goMarshalMembers float64 seen rest
    else
      match goMarshalValue float64 v, goMarshalMembers float64 (k :: seen) rest with
      | some v2, some rest2 => some ((k, v2) :: rest2)
      | _, _ => none
end

/-! ## What json.Marshal writes for a Go string

A Go string is a sequence of bytes.  `json.Marshal` reads it rune by rune
(`utf8.DecodeRuneInString`) and writes, for every byte that does not start a
valid UTF-8 sequence, the replacement character U+FFFD.
-/

/-- Whether a byte is a continuation byte, from 0x80 to 0xBF. -/
def isContinuation (b : UInt8) : Bool := decide (0x80 ≤ b.toNat ∧ b.toNat ≤ 0xBF)

/-- The function `utf8.DecodeRune`: the first rune of the bytes and its size,
`none` where Go answers `(RuneError, 1)` for bytes that do not start with a
valid sequence (or for no bytes at all). -/
def decodeRune : Bytes → Option (Char × Nat)
  | [] => none
  | b0 :: rest =>
    if b0.toNat < 0x80 then some (Char.ofNat b0.toNat, 1)
    else if 0xC2 ≤ b0.toNat ∧ b0.toNat ≤ 0xDF then
      match rest with
      | b1 :: _ =>
        if isContinuation b1 then
          some (Char.ofNat ((b0.toNat - 0xC0) * 64 + (b1.toNat - 0x80)), 2)
        else none
      | _ => none
    else if 0xE0 ≤ b0.toNat ∧ b0.toNat ≤ 0xEF then
      match rest with
      | b1 :: b2 :: _ =>
        if (if b0.toNat = 0xE0 then 0xA0 else 0x80) ≤ b1.toNat ∧
            b1.toNat ≤ (if b0.toNat = 0xED then 0x9F else 0xBF) ∧ isContinuation b2 then
          some (Char.ofNat ((b0.toNat - 0xE0) * 4096 + (b1.toNat - 0x80) * 64 +
            (b2.toNat - 0x80)), 3)
        else none
      | _ => none
    else if 0xF0 ≤ b0.toNat ∧ b0.toNat ≤ 0xF4 then
      match rest with
      | b1 :: b2 :: b3 :: _ =>
        if (if b0.toNat = 0xF0 then 0x90 else 0x80) ≤ b1.toNat ∧
            b1.toNat ≤ (if b0.toNat = 0xF4 then 0x8F else 0xBF) ∧ isContinuation b2 ∧
            isContinuation b3 then
          some (Char.ofNat ((b0.toNat - 0xF0) * 262144 + (b1.toNat - 0x80) * 4096 +
            (b2.toNat - 0x80) * 64 + (b3.toNat - 0x80)), 4)
        else none
      | _ => none
    else none

/-- The runes `json.Marshal` finds in a Go string: a valid sequence gives its
character, and a byte that starts none gives U+FFFD and is skipped alone.  The
first argument bounds the number of runes; the length of the string is
enough. -/
def decodeRunes : Nat → Bytes → List Char
  | 0, _ => []
  | _ + 1, [] => []
  | fuel + 1, b :: rest =>
    match decodeRune (b :: rest) with
    | some (c, size) => c :: decodeRunes fuel ((b :: rest).drop size)
    | none => Char.ofNat 0xFFFD :: decodeRunes fuel rest

/-- The text of the JSON string that `json.Marshal` writes for a Go string. -/
def jsonString (s : Bytes) : String :=
  ⟨decodeRunes s.length s⟩

/-! ## The request injector and the message extractors -/

/-- The test `msg.Get("role").String() == role` made on one message. -/
def hasRole (raw : JSON → String) (role : String) (msg : JSON) : Bool :=
  Result.String raw (Result.Get (some msg) [.key "role"]) == role

/-- The loop of `injectMemoryIntoRequest` that looks for an existing system
message: `i` is the index of the first message of the list, and the result is
`systemIndex`, with `none` for the initial `-1`.  The loop breaks at the first
match. -/
def findSystemIndex (raw : JSON → String) : List JSON → Nat → Option Nat
  | [], _ => none
  | msg :: rest, i =>
    if hasRole raw "system" msg then some i else findSystemIndex raw rest (i + 1)

/-- The system message built when the request has none.  It is a
`map[string]string`, which `json.Marshal` writes with its keys sorted. -/
def systemMsg (memoryContext : String) : JSON :=
  .obj [("content", .str ("You are an AI assistant." ++ memoryContext)),
        ("role", .str "system")]

/-- The function `injectMemoryIntoRequest` from the point where
`client.GetMemory` has returned `fetched` (an error or the blocks).

`marshalValue` stands for `msg.Value()` followed by the `json.Marshal` that
`sjson.SetBytes` applies to `newMessages`: the message decoded into Go values
and encoded again, `none` when the encoding fails (then `SetBytes` returns an
error and a nil slice).  `goMarshalValue` is that round trip; the function is
stated for any `marshalValue` so that what does not depend on the round trip
holds for every one. -/
def injectFetched (raw : JSON → String) (marshalValue : JSON → Option JSON)
    (fetched : Except String (List MemoryBlock)) (body : Body) : Body :=
  match fetched with
  | .error _ => body
  | .ok blocks =>
    if blocks.length = 0 then body
    else
      let memoryContext := FormatMemoryForInjection blocks
      -- Find and modify the system message
      let messages := gjsonGetBytes body [.key "messages"]
      if !Result.IsArray messages then body
      else
        -- Look for existing system message
        let systemIndex := findSystemIndex raw (Result.Array messages) 0
        let modifiedBody : Option Body :=
          match systemIndex with
          | some i =>
            -- Append memory to existing system message
            let existingContent :=
              Result.String raw (gjsonGetBytes body [.key "messages", .idx i, .key "content"])
            let newContent := existingContent ++ memoryContext
            sjsonSetBytes body [.key "messages", .idx i, .key "content"] (.str newContent)
          | none =>
            -- Prepend a new system message with memory
            let existingMessages := Result.Array messages
            match existingMessages.mapM marshalValue with
            | some values =>
              sjsonSetBytes body [.key "messages"] (.arr (systemMsg memoryContext :: values))
            | none => none
        match modifiedBody with
        | none => body
        | some modified => modified

/-- The loop of `extractUserMessage`: `lastUserMsg` after one more message. -/
def userMessageStep (raw : JSON → String) (lastUserMsg : String) (msg : JSON) : String :=
  if hasRole raw "user" msg then Result.String raw (Result.Get (some msg) [.key "content"])
  else lastUserMsg

/-- The function `extractUserMessage` extracts the last user message from the
request. -/
def extractUserMessage (raw : JSON → String) (body : Body) : String :=
  let messages := gjsonGetBytes body [.key "messages"]
  if !Result.IsArray messages then ""
  else (Result.Array messages).foldl (userMessageStep raw) ""

/-- The function `extractAssistantResponse` extracts the assistant response
from the response body. -/
def extractAssistantResponse (raw : JSON → String) (body : Body) : String :=
  let content := Result.String raw
    (gjsonGetBytes body [.key "choices", .idx 0, .key "message", .key "content"])
  if content != "" then content
  else ""

/-! ## The memory service client -/

/-- Configuration for the Letta integration (`type Config struct`). -/
structure Config where
  Enabled : Bool
  ServerURL : String
  AgentID : String
  Timeout : Int
  deriving Repr, DecidableEq

/-- The client of the Letta server (`type Client struct`): its configuration.
The `httpClient` it holds is the environment `Http` below. -/
structure Client where
  config : Config
  deriving Repr, DecidableEq

/-- The Go value `map[string]interface{}{"messages": []map[string]string{...}}`
that `UpdateMemory` hands to `json.Marshal`: each message is the list of its
entries. -/
structure MessagesPayload where
  messages : List (List (String × Bytes))
  deriving Repr, DecidableEq

/-- The JSON document `json.Marshal(payload)` writes: a map is written with
its keys sorted, and a string as `jsonString` reads it. -/
def jsonMarshalPayload (payload : MessagesPayload) : JSON :=
  .obj [("messages", .arr (payload.messages.map (fun message =>
    .obj (sortMembers (message.map (fun entry => (entry.1, .str (jsonString entry.2))))))))]

/-- An HTTP request handed to `httpClient.Do`; `Payload` is the JSON document
its body encodes, `none` for a request without body. -/
structure HttpRequest where
  Method : String
  URL : String
  Header : List (String × String)
  Payload : Option JSON
  deriving Repr

/-- An HTTP response: its status code and what `io.ReadAll(resp.Body)`
returns. -/
structure HttpResponse where
  StatusCode : Nat
  Body : Except String Body

/-- The world the client talks to.  `urlError` is the error with which
`http.NewRequestWithContext` refuses a URL, if it does; `Do` is
`httpClient.Do`, a transport error (time-outs included) or a response. -/
structure Http where
  urlError : String → Option String
  Do : HttpRequest → Except String HttpResponse

/-- The method `GetMemory` of the client: retrieves the memory blocks of the
Letta agent.  The result is the pair `(blocks, err)` of the Go function,
together with the requests handed to `httpClient.Do`, in order. -/
def Client.GetMemory (c : Client) (raw : JSON → String) (http : Http) :
    Except String (List MemoryBlock) × List HttpRequest :=
  if !c.config.Enabled || c.config.AgentID == "" then (.ok [], [])
  else
    let url := c.config.ServerURL ++ "/v1/agents/" ++ c.config.AgentID
    match http.urlError url with
    | some err => (.error err, [])
    | none =>
      let req : HttpRequest := { Method := "GET", URL := url, Header := [], Payload := none }
      match http.Do req with
      | .error err => (.error err, [req])
      | .ok resp =>
        if resp.StatusCode != 200 then
          (.error ("letta returned status " ++ toString resp.StatusCode), [req])
        else
          match resp.Body with
          | .error err => (.error err, [req])
          | .ok body =>
            -- Parse memory blocks from agent response (memory.blocks)
            let blocksJSON := gjsonGetBytes body [.key "memory", .key "blocks"]
            let blocks : List MemoryBlock :=
              if Result.IsArray blocksJSON then
                (Result.Array blocksJSON).map (fun block =>
                  { Label := Result.String raw (Result.Get (some block) [.key "label"]),
                    Value := Result.String raw (Result.Get (some block) [.key "value"]) })
              else []
            (.ok blocks, [req])

/-- The method `UpdateMemory` of the client: sends a message to the Letta
agent to update its memory.  The result is the error returned (`none` for
nil), together with the requests handed to `httpClient.Do`.  The payload is a
map of strings, which `json.Marshal` always encodes, so that the branch
`if err != nil` after it is never taken. -/
def Client.UpdateMemory (c : Client) (http : Http) (userMessage assistantResponse : String) :
    Option String × List HttpRequest :=
  if !c.config.Enabled || c.config.AgentID == "" then (none, [])
  else
    -- Create a summary message for Letta to process
    let summaryMessage : Bytes :=
      goBytes "[Memory Update] User asked: " ++ truncate (goBytes userMessage) 500 ++
        goBytes "\n\nAssistant responded (summary): " ++
        truncate (goBytes assistantResponse) 1000
    let url := c.config.ServerURL ++ "/v1/agents/" ++ c.config.AgentID ++ "/messages"
    let payload : MessagesPayload :=
      { messages := [[("role", goBytes "user"), ("content", summaryMessage)]] }
    let payloadBytes := jsonMarshalPayload payload
    match http.urlError url with
    | some err => (some err, [])
    | none =>
      let req : HttpRequest :=
        { Method := "POST", URL := url, Header := [("Content-Type", "application/json")],
          Payload := some payloadBytes }
      match http.Do req with
      | .error err => (some err, [req])
      | .ok _ => (none, [req])

/-- The function `injectMemoryIntoRequest`: modifies the request body to
include memory context.  The result is the body returned, together with the
requests that `client.GetMemory` handed to `httpClient.Do`. -/
def injectMemoryIntoRequest (raw : JSON → String) (marshalValue : JSON → Option JSON)
    (http : Http) (client : Client) (body : Body) : Body × List HttpRequest :=
  let (fetched, calls) := client.GetMemory raw http
  (injectFetched raw marshalValue fetched body, calls)

/-! ## Response capture -/

/-- What a `Write` returns: the number of bytes written and the error, `none`
for nil. -/
abbrev WriteResult := Int × Option String

/-- The struct `responseCapture`, which wraps `gin.ResponseWriter` to capture
the response body: the state of the embedded writer and the buffer `body`.
Every other method of the writer (`WriteHeader`, `Header`, `Status`, ...) is
promoted from the embedded field and acts on `ResponseWriter` alone. -/
structure responseCapture (σ : Type) where
  ResponseWriter : σ
  body : Bytes

/-- The method `Write` of `responseCapture`; `W` is the `Write` of the embedded
writer.  `rc.body.Write(data)` appends to the buffer. -/
def responseCapture.Write {σ : Type} (W : σ → Bytes → σ × WriteResult)
    (rc : responseCapture σ) (data : Bytes) : responseCapture σ × WriteResult :=
  let body := rc.body ++ data
  let (w, result) := W rc.ResponseWriter data
  ({ ResponseWriter := w, body := body }, result)

/-- A sequence of writes through the capture: the state afterwards and the
results returned, in order. -/
def responseCapture.writeAll {σ : Type} (W : σ → Bytes → σ × WriteResult)
    (rc : responseCapture σ) : List Bytes → responseCapture σ × List WriteResult
  | [] => (rc, [])
  | data :: rest =>
    let (rc1, result) := rc.Write W data
    let (rc2, results) := responseCapture.writeAll W rc1 rest
    (rc2, result :: results)

/-- The same sequence of writes made on the embedded writer itself. -/
def writeAllDirect {σ : Type} (W : σ → Bytes → σ × WriteResult)
    (w : σ) : List Bytes → σ × List WriteResult
  | [] => (w, [])
  | data :: rest =>
    let (w1, result) := W w data
    let (w2, results) := writeAllDirect W w1 rest
    (w2, result :: results)

/-- The byte slices that a writer has received, in order: a writer that does
nothing but record them. -/
def recordingWrite (received : List Bytes) (data : Bytes) : List Bytes × WriteResult :=
  (received ++ [data], ((data.length : Int), none))

/-! ## The interception middleware -/

/-- Go `strings.Contains(s, substr)`. -/
def stringsContains (s substr : String) : Bool :=
  decide (substr.data <:+: s.data)

/-- The request as the middleware uses it: `c.Request.URL.Path`, and what
`io.ReadAll(c.Request.Body)` returns (the bytes or an error). -/
structure Request where
  Path : String
  Body : Except String Body

/-- What happened around one request. -/
structure Run (σ : Type) where
  -- the requests handed to `httpClient.Do` before the downstream handler ran
  fetches : List HttpRequest
  -- what the downstream handler reads as the request body
  forwarded : Except String Body
  -- whether `c.Writer` was replaced by a `responseCapture`
  capturing : Bool
  -- the real response writer after the handler has run
  writer : σ
  -- the contents of the capture buffer after the handler has run
  captured : Bytes
  -- the calls `UpdateMemory(ctx, userMsg, assistantResponse)` of the detached task
  updates : List (String × String)
  -- the requests those calls handed to `httpClient.Do`
  posts : List HttpRequest

/-- The branches `c.Next(); return` of the middleware: the handler runs on the
request as it is and writes to the real writer. -/
def passThrough {σ : Type} (W : σ → Bytes → σ × WriteResult)
    (next : Except String Body → List Bytes) (w : σ) (req : Request) : Run σ :=
  { fetches := [], forwarded := req.Body, capturing := false,
    writer := (writeAllDirect W w (next req.Body)).1, captured := [],
    updates := [], posts := [] }

/-- The handler returned by `memoryInjectionMiddleware(client)`, run on one
request.

`client` is `none` for a nil pointer.  `next` is the rest of the handler
chain (`c.Next()`): the slices it passes to `c.Writer.Write`, given the request
body it reads.  `W` and `w` are the `Write` method and the state of the real
response writer.  `decode` is the reading gjson makes of the captured bytes.
The detached task (`go func`) is modelled by what it does; when it runs is not
represented.  After a failed read the handler meets the same failed body.
`c.Request.ContentLength` and `c.Set("letta_user_message", ...)` are not
represented. -/
def memoryInjectionMiddleware {σ : Type} (raw : JSON → String)
    (marshalValue : JSON → Option JSON) (decode : Bytes → Body) (http : Http)
    (W : σ → Bytes → σ × WriteResult) (client : Option Client)
    (next : Except String Body → List Bytes) (w : σ) (req : Request) : Run σ :=
  -- Only intercept chat completions
  if !stringsContains req.Path "/chat/completions" then passThrough W next w req
  else
    match client with
    | none => passThrough W next w req
    | some client =>
      -- Skip if client is not enabled
      if !client.config.Enabled then passThrough W next w req
      else
        -- Read the original body
        match req.Body with
        | .error _ => passThrough W next w req
        | .ok bodyBytes =>
          -- Try to inject memory into the request
          let (modifiedBody, fetches) :=
            injectMemoryIntoRequest raw marshalValue http client bodyBytes
          -- Store original user message for post-response update
          let userMessage := extractUserMessage raw bodyBytes
          -- Create a response writer wrapper to capture the response
          let rw : responseCapture σ := { ResponseWriter := w, body := [] }
          -- Continue to next handler
          let rw := (responseCapture.writeAll W rw (next (.ok modifiedBody))).1
          -- Post-response: update memory asynchronously
          let (updates, posts) : List (String × String) × List HttpRequest :=
            if userMessage != "" && rw.body.length > 0 then
              let assistantResponse := extractAssistantResponse raw (decode rw.body)
              if assistantResponse != "" then
                ([(userMessage, assistantResponse)],
                  (client.UpdateMemory http userMessage assistantResponse).2)
              else ([], [])
            else ([], [])
          { fetches := fetches, forwarded := .ok modifiedBody, capturing := true,
            writer := rw.ResponseWriter, captured := rw.body,
            updates := updates, posts := posts }

/-! ## Reference definitions and sample data -/

/-- The fixed header of the memory context. -/
def memoryHeader : String :=
  "\n\n--- Agent Memory Context ---\n" ++
    "The following is context from your persistent memory. Use it to maintain continuity:" ++
    "\n\n"

/-- The fixed footer of the memory context. -/
def memoryFooter : String := "--- End Memory Context ---\n"

/-- The formatter as the specification words it: nothing for no block;
otherwise the header, one section per block with a non-empty value, in input
order, and the footer. -/
def formatSpec (bs : List MemoryBlock) : String :=
  if bs = [] then ""
  else
    memoryHeader ++
      String.join ((bs.filter (fun b => b.Value ≠ "")).map
        (fun b => "[" ++ b.Label ++ "]\n" ++ b.Value ++ "\n\n")) ++
      memoryFooter

/-- The members of an object after a set of the key `k`: the first member
with that key takes the new value, and a key that is missing is appended. -/
def putMember (k : String) (v : JSON) (members : List (String × JSON)) : List (String × JSON) :=
  match lookupMember k members with
  | some _ => replaceMember k v members
  | none => members ++ [(k, v)]

/-- A `raw` for sample bodies whose roles and contents are all strings (on
those `Result.String` never consults it). -/
def noRaw : JSON → String := fun _ => ""

/-- A Letta server that answers every request with status 200 and one memory
block `L` of value `V`. -/
def sampleHttp : Http :=
  { urlError := fun _ => none,
    Do := fun _ => .ok
      { StatusCode := 200,
        Body := .ok (.json (.obj [("id", .str "agent-1"),
          ("memory", .obj [("blocks",
            .arr [.obj [("label", .str "L"), ("value", .str "V")]])])])) } }

/-- A Letta server that cannot be reached. -/
def downHttp : Http :=
  { urlError := fun _ => none, Do := fun _ => .error "connection refused" }

/-- An enabled client. -/
def sampleClient : Client :=
  { config := { Enabled := true, ServerURL := "http://localhost:8283",
                AgentID := "agent-1", Timeout := 300 } }

/-- A request body with a system message `A` followed by a user message. -/
def bodyWithSystem : Body :=
  .json (.obj [("model", .str "gpt"),
    ("messages", .arr [.obj [("role", .str "system"), ("content", .str "A")],
                       .obj [("role", .str "user"), ("content", .str "hi")]]),
    ("stream", .bool false)])

/-- A request body without a system message. -/
def bodyWithoutSystem : Body :=
  .json (.obj [("model", .str "gpt"),
    ("messages", .arr [.obj [("role", .str "user"), ("content", .str "hi")],
                       .obj [("role", .str "assistant"), ("content", .str "hello")],
                       .obj [("role", .str "user"), ("content", .str "bye")]])])

/-- A request body without a `messages` field. -/
def bodyWithoutMessages : Body :=
  .json (.obj [("model", .str "gpt"), ("prompt", .str "hi")])

/-- A non-streaming chat completion response whose first choice says `ok`. -/
def sampleResponse : Body :=
  .json (.obj [("id", .str "chatcmpl-1"),
    ("choices", .arr [.obj [("index", .num "0"),
      ("message", .obj [("role", .str "assistant"), ("content", .str "ok")])]])])

/-- An enabled client whose agent id is empty. -/
def clientWithoutAgent : Client :=
  { config := { Enabled := true, ServerURL := "http://localhost:8283",
                AgentID := "", Timeout := 300 } }

/-- The first part of the text of the sample response. -/
def sampleResponseHead : String :=
  "\x7b\"id\":\"chatcmpl-1\",\"choices\":[\x7b\"index\":0,"

/-- The second part of the text of the sample response. -/
def sampleResponseTail : String :=
  "\"message\":\x7b\"role\":\"assistant\",\"content\":\"ok\"\x7d\x7d]\x7d"

/-- A downstream handler that writes the text of the sample response in two
slices. -/
def sampleNext : Except String Body → List Bytes :=
  fun _ => [goBytes sampleResponseHead, goBytes sampleResponseTail]

/-- A reading of captured bytes that knows the text of the sample response:
in these bytes gjson reads the sample response, and in others it is taken to
find nothing. -/
def sampleDecode : Bytes → Body :=
  fun bytes =>
    if bytes = goBytes (sampleResponseHead ++ sampleResponseTail) then sampleResponse
    else .text bytes

/-- A Letta server behind a URL parser that, like `net/url`, refuses a URL
with a space in it. -/
def strictHttp : Http :=
  { urlError := fun url =>
      if url.data.contains ' ' then some "invalid character in host name" else none,
    Do := fun _ => .ok { StatusCode := 200, Body := .ok (.text []) } }

/-- An enabled client with an agent id, whose server URL has a space in the
host name. -/
def clientWithBadURL : Client :=
  { config := { Enabled := true, ServerURL := "http://local host:8283",
                AgentID := "agent-1", Timeout := 300 } }

/-- A Letta server that answers every request with status 200 and one memory
block `L` whose value is empty. -/
def emptyValueHttp : Http :=
  { urlError := fun _ => none,
    Do := fun _ => .ok
      { StatusCode := 200,
        Body := .ok (.json (.obj [("memory", .obj [("blocks",
          .arr [.obj [("label", .str "L"), ("value", .str "")]])])])) } }

/-- A request body without a system message, one of whose messages carries
the number `1e999`. -/
def bodyWithHugeNumber : Body :=
  .json (.obj [("messages",
    .arr [.obj [("role", .str "user"), ("content", .str "hi"), ("n", .num "1e999")]])])

/-- A user message of 251 characters and 501 bytes: an `a` followed by 250
times `é`.  The bound of 500 bytes falls inside the last `é`. -/
def accentedMessage : String :=
  ⟨'a' :: List.replicate 250 'é'⟩

/-! ## Theorems -/

theorem foldl_append_eq (acc : String) (l : List String) :
    l.foldl (fun r s => r ++ s) acc = acc ++ String.join l := by
  induction l generalizing acc with
  | nil => simp [String.join]
  | cons x xs ih =>
    simp only [List.foldl_cons, String.join]
    rw [ih (acc ++ x), ih ("" ++ x)]
    simp [String.append_assoc]

theorem join_cons (x : String) (xs : List String) :
    String.join (x :: xs) = x ++ String.join xs := by
  simp only [String.join, List.foldl_cons]
  rw [foldl_append_eq]
  simp [String.join]

theorem foldl_formatStep (sb : String) (blocks : List MemoryBlock) :
    blocks.foldl formatStep sb =
      sb ++ String.join ((blocks.filter (fun b => b.Value ≠ "")).map
        (fun b => "[" ++ b.Label ++ "]\n" ++ b.Value ++ "\n\n")) := by
  induction blocks generalizing sb with
  | nil => simp [String.join]
  | cons b rest ih =>
    simp only [List.foldl_cons]
    rw [ih]
    by_cases hv : b.Value = ""
    · simp [formatStep, hv]
    · simp [formatStep, hv, sprintfBlock, join_cons, String.append_assoc]

/-- C6: `FormatMemoryForInjection` equals the reference definition for every
block list: the empty string for no block; otherwise the fixed header, then in
input order one section `[label]\nvalue\n\n` for exactly the blocks whose
value is non-empty, then the fixed footer. -/
theorem FormatMemoryForInjection_eq_formatSpec (bs : List MemoryBlock) :
    FormatMemoryForInjection bs = formatSpec bs := by
  unfold FormatMemoryForInjection formatSpec
  cases bs with
  | nil => simp
  | cons b rest =>
    simp only [List.length_cons, Nat.add_one_ne_zero, if_false, reduceCtorEq]
    rw [foldl_formatStep]
    simp [memoryHeader, memoryFooter, String.append_assoc]

/-! ### Truncation -/

theorem truncate_by_bytes (s : Bytes) (maxLen : Nat) :
    (s.length ≤ maxLen → truncate s maxLen = s) ∧
    (maxLen < s.length → truncate s maxLen = s.take maxLen ++ goBytes "...") := by
  constructor
  · intro h
    simp [truncate, h]
  · intro h
    simp [truncate, Nat.not_le.mpr h]

theorem goBytes_ascii (cs : List Char) (h : ∀ c ∈ cs, c.val ≤ 0x7f) :
    goBytes ⟨cs⟩ = cs.map (fun c => c.val.toUInt8) := by
  induction cs with
  | nil => rfl
  | cons c rest ih =>
    have hc : c.val ≤ 0x7f := h c (List.mem_cons_self c rest)
    have hrest : ∀ d ∈ rest, d.val ≤ 0x7f := fun d hd => h d (List.mem_cons_of_mem c hd)
    have ih2 := ih hrest
    simp only [goBytes] at ih2 ⊢
    simp only [List.flatMap_cons, List.map_cons, ih2]
    simp [String.utf8EncodeChar, hc]

theorem truncate_ascii (cs : List Char) (maxLen : Nat) (h : ∀ c ∈ cs, c.val ≤ 0x7f) :
    truncate (goBytes ⟨cs⟩) maxLen =
      goBytes ⟨if cs.length ≤ maxLen then cs else cs.take maxLen ++ "...".data⟩ := by
  have hlen : (goBytes ⟨cs⟩).length = cs.length := by
    rw [goBytes_ascii cs h, List.length_map]
  by_cases hle : cs.length ≤ maxLen
  · simp [truncate, hlen, hle]
  · have htake : ∀ c ∈ cs.take maxLen, c.val ≤ 0x7f :=
      fun c hc => h c (List.mem_of_mem_take hc)
    simp only [truncate, hlen, hle, if_false]
    have happ : goBytes ⟨cs.take maxLen ++ "...".data⟩ =
        goBytes ⟨cs.take maxLen⟩ ++ goBytes "..." := by
      simp [goBytes, List.flatMap_append]
    rw [happ, goBytes_ascii _ htake, goBytes_ascii cs h, List.map_take]

/-- C9 (the code at a failing input): the one-character string `é` (two bytes,
C3 A9) fits `maxLen = 1` counted in characters, yet `truncate` cuts it after
its first byte and appends the ellipsis; the result is not the string
unchanged. -/
theorem truncate_cuts_inside_character :
    "é".length ≤ 1 ∧
    goBytes "é" = [0xC3, 0xA9] ∧
    truncate (goBytes "é") 1 = [0xC3, 0x2E, 0x2E, 0x2E] ∧
    truncate (goBytes "é") 1 ≠ goBytes "é" := by
  decide

/-! ### Members of an object -/

theorem lookupMember_replace_self (k : String) (v : JSON) (ms : List (String × JSON))
    (h : lookupMember k ms ≠ none) : lookupMember k (replaceMember k v ms) = some v := by
  induction ms with
  | nil => simp [lookupMember] at h
  | cons p rest ih =>
    obtain ⟨k1, v1⟩ := p
    by_cases hk : k1 = k
    · simp [replaceMember, lookupMember, hk]
    · have hrest : lookupMember k rest ≠ none := by
        simpa [lookupMember, hk] using h
      simp [replaceMember, lookupMember, hk, ih hrest]

theorem lookupMember_replace_of_ne (k k2 : String) (v : JSON) (ms : List (String × JSON))
    (h : k2 ≠ k) : lookupMember k2 (replaceMember k v ms) = lookupMember k2 ms := by
  induction ms with
  | nil => simp [replaceMember]
  | cons p rest ih =>
    obtain ⟨k1, v1⟩ := p
    by_cases hk : k1 = k
    · have hk2 : ¬ k = k2 := fun e => h e.symm
      simp [replaceMember, lookupMember, hk, hk2]
    · by_cases hk3 : k1 = k2
      · subst hk3
        simp [replaceMember, lookupMember, hk]
      · simp [replaceMember, lookupMember, hk, hk3, ih]

theorem lookupMember_append_self (k : String) (v : JSON) (ms : List (String × JSON))
    (h : lookupMember k ms = none) : lookupMember k (ms ++ [(k, v)]) = some v := by
  induction ms with
  | nil => simp [lookupMember]
  | cons p rest ih =>
    obtain ⟨k1, v1⟩ := p
    by_cases hk : k1 = k
    · simp [lookupMember, hk] at h
    · have hrest : lookupMember k rest = none := by
        simpa [lookupMember, hk] using h
      simp [lookupMember, hk, ih hrest]

theorem lookupMember_append_of_ne (k k2 : String) (v : JSON) (ms : List (String × JSON))
    (h : k2 ≠ k) : lookupMember k2 (ms ++ [(k, v)]) = lookupMember k2 ms := by
  induction ms with
  | nil =>
    have hk2 : ¬ k = k2 := fun e => h e.symm
    simp [lookupMember, hk2]
  | cons p rest ih =>
    obtain ⟨k1, v1⟩ := p
    by_cases hk3 : k1 = k2
    · simp [lookupMember, hk3]
    · simp [lookupMember, hk3, ih]

theorem lookupMember_putMember_self (k : String) (v : JSON) (ms : List (String × JSON)) :
    lookupMember k (putMember k v ms) = some v := by
  unfold putMember
  cases h : lookupMember k ms with
  | none => simpa using lookupMember_append_self k v ms h
  | some c =>
    have hne : lookupMember k ms ≠ none := by simp [h]
    simpa using lookupMember_replace_self k v ms hne

theorem lookupMember_putMember_of_ne (k k2 : String) (v : JSON) (ms : List (String × JSON))
    (h : k2 ≠ k) : lookupMember k2 (putMember k v ms) = lookupMember k2 ms := by
  unfold putMember
  cases lookupMember k ms with
  | none => simpa using lookupMember_append_of_ne k k2 v ms h
  | some c => simpa using lookupMember_replace_of_ne k k2 v ms h

/-! ### Paths -/

theorem get_nil (r : Result) : Result.Get r [] = r := rfl

theorem get_cons_some (v : JSON) (seg : Seg) (rest : List Seg) :
    Result.Get (some v) (seg :: rest) = Result.Get (v.child seg) rest := rfl

theorem get_none (path : List Seg) : Result.Get none path = none := by
  induction path with
  | nil => rfl
  | cons seg rest ih => simpa [Result.Get] using ih

theorem child_obj (members : List (String × JSON)) (seg : Seg) :
    (JSON.obj members).child seg = lookupMember seg.name members := by
  cases seg <;> rfl

theorem child_arr_idx (elems : List JSON) (i : Nat) :
    (JSON.arr elems).child (.idx i) = elems[i]? := rfl

theorem child_key_some_is_obj (v c : JSON) (k : String) (h : v.child (.key k) = some c) :
    ∃ members, v = .obj members ∧ lookupMember k members = some c := by
  cases v with
  | obj members => exact ⟨members, rfl, by simpa [child_obj, Seg.name] using h⟩
  | null => simp [JSON.child] at h
  | bool b => simp [JSON.child] at h
  | num lit => simp [JSON.child] at h
  | str s => simp [JSON.child] at h
  | arr elems => simp [JSON.child] at h

theorem setPath_last_obj (members : List (String × JSON)) (k : String) (value : JSON) :
    (JSON.obj members).setPath [.key k] value = some (.obj (putMember k value members)) := by
  unfold JSON.setPath putMember
  rw [child_obj]
  simp only [Seg.name]
  cases h : lookupMember k members with
  | none => simp [JSON.setMissing, Seg.name]
  | some c => simp [JSON.setPath, JSON.replaceChild, Seg.name]

/-! ### The search for the system message -/

theorem hasRole_is_obj (raw : JSON → String) (role : String) (m : JSON)
    (hrole : role ≠ "") (h : hasRole raw role m = true) :
    ∃ members, m = .obj members := by
  unfold hasRole at h
  rw [get_cons_some, get_nil] at h
  cases hc : m.child (.key "role") with
  | none =>
    rw [hc] at h
    simp only [Result.String, beq_iff_eq] at h
    exact absurd h.symm hrole
  | some c =>
    obtain ⟨members, hm, _⟩ := child_key_some_is_obj m c "role" hc
    exact ⟨members, hm⟩

theorem findSystemIndex_none (raw : JSON → String) (msgs : List JSON) (start : Nat) :
    findSystemIndex raw msgs start = none ↔ ∀ m ∈ msgs, hasRole raw "system" m = false := by
  induction msgs generalizing start with
  | nil => simp [findSystemIndex]
  | cons m rest ih =>
    by_cases hm : hasRole raw "system" m = true
    · simp [findSystemIndex, hm]
    · have hm2 : hasRole raw "system" m = false := by simpa using hm
      simp [findSystemIndex, hm2, ih]

theorem findSystemIndex_some (raw : JSON → String) (msgs : List JSON) (start i : Nat)
    (h : findSystemIndex raw msgs start = some i) :
    start ≤ i ∧ ∃ m, msgs[i - start]? = some m ∧ hasRole raw "system" m = true ∧
      ∀ j, j < i - start → ∀ x, msgs[j]? = some x → hasRole raw "system" x = false := by
  induction msgs generalizing start with
  | nil => simp [findSystemIndex] at h
  | cons m rest ih =>
    by_cases hm : hasRole raw "system" m = true
    · simp only [findSystemIndex, hm, if_true, Option.some.injEq] at h
      subst h
      refine ⟨Nat.le_refl _, m, by simp, hm, ?_⟩
      intro j hj
      simp at hj
    · have hm2 : hasRole raw "system" m = false := by simpa using hm
      simp only [findSystemIndex, hm2] at h
      obtain ⟨hle, x, hx, hxrole, hbefore⟩ := ih (start + 1) h
      have hpos : i - start = (i - (start + 1)) + 1 := by omega
      refine ⟨by omega, x, ?_, hxrole, ?_⟩
      · rw [hpos]
        simpa using hx
      · intro j hj y hy
        cases j with
        | zero =>
          simp at hy
          subst hy
          exact hm2
        | succ j2 =>
          have hj2 : j2 < i - (start + 1) := by omega
          exact hbefore j2 hj2 y (by simpa using hy)

/-! ### What the injector returns -/

theorem gjsonGetBytes_obj_key (wrap : JSON → Body) (hw : IsDocBody wrap)
    (members : List (String × JSON)) (k : String) (rest : List Seg) :
    gjsonGetBytes (wrap (.obj members)) (.key k :: rest) =
      Result.Get (lookupMember k members) rest := by
  rcases hw with rfl | rfl <;> simp [gjsonGetBytes, get_cons_some, child_obj, Seg.name]

theorem messages_array_is_obj (body : Body) (msgs : List JSON)
    (h : gjsonGetBytes body [.key "messages"] = some (.arr msgs)) :
    ∃ wrap members, IsDocBody wrap ∧ body = wrap (.obj members) ∧
      lookupMember "messages" members = some (.arr msgs) := by
  cases body with
  | text bytes => simp [gjsonGetBytes] at h
  | json doc =>
    simp only [gjsonGetBytes, get_cons_some, get_nil] at h
    obtain ⟨members, hdoc, hlook⟩ := child_key_some_is_obj doc _ "messages" h
    exact ⟨Body.json, members, Or.inl rfl, by rw [hdoc], hlook⟩
  | malformed doc =>
    simp only [gjsonGetBytes, get_cons_some, get_nil] at h
    obtain ⟨members, hdoc, hlook⟩ := child_key_some_is_obj doc _ "messages" h
    exact ⟨Body.malformed, members, Or.inr rfl, by rw [hdoc], hlook⟩

theorem injectFetched_system (raw : JSON → String) (marshalValue : JSON → Option JSON)
    (bs : List MemoryBlock) (wrap : JSON → Body) (hw : IsDocBody wrap)
    (members mm : List (String × JSON)) (msgs : List JSON) (i : Nat)
    (hbs : bs ≠ []) (hmsgs : lookupMember "messages" members = some (.arr msgs))
    (hidx : findSystemIndex raw msgs 0 = some i) (hm : msgs[i]? = some (.obj mm)) :
    injectFetched raw marshalValue (.ok bs) (wrap (.obj members)) =
      wrap (.obj (replaceMember "messages"
        (.arr (msgs.set i (.obj (putMember "content"
          (.str (Result.String raw (lookupMember "content" mm) ++
            FormatMemoryForInjection bs)) mm)))) members)) := by
  have hlen : bs.length ≠ 0 := by
    intro h0
    exact hbs (List.length_eq_zero.mp h0)
  have hset : (JSON.obj members).setPath [.key "messages", .idx i, .key "content"]
      (.str (Result.String raw (lookupMember "content" mm) ++ FormatMemoryForInjection bs)) =
      some (.obj (replaceMember "messages"
        (.arr (msgs.set i (.obj (putMember "content"
          (.str (Result.String raw (lookupMember "content" mm) ++
            FormatMemoryForInjection bs)) mm)))) members)) := by
    rw [JSON.setPath, child_obj]
    simp only [Seg.name, hmsgs]
    rw [JSON.setPath, child_arr_idx]
    simp only [hm]
    rw [setPath_last_obj]
    simp [JSON.replaceChild, Seg.name]
  unfold injectFetched
  simp only [hlen, if_false, gjsonGetBytes_obj_key wrap hw, get_nil, hmsgs, Result.IsArray,
    Result.Array, hidx, get_cons_some, child_arr_idx, hm, child_obj, Seg.name]
  rcases hw with rfl | rfl <;> simp [sjsonSetBytes, hset]

theorem mapM_some_self (f : JSON → Option JSON) (l : List JSON)
    (h : ∀ m ∈ l, f m = some m) : l.mapM f = some l := by
  induction l with
  | nil => rfl
  | cons m rest ih =>
    have hm : f m = some m := h m (List.mem_cons_self m rest)
    have hrest : rest.mapM f = some rest := ih (fun x hx => h x (List.mem_cons_of_mem m hx))
    rw [List.mapM_cons, hm, hrest]
    rfl

theorem injectFetched_prepend (raw : JSON → String) (marshalValue : JSON → Option JSON)
    (bs : List MemoryBlock) (wrap : JSON → Body) (hw : IsDocBody wrap)
    (members : List (String × JSON)) (msgs values : List JSON)
    (hbs : bs ≠ []) (hmsgs : lookupMember "messages" members = some (.arr msgs))
    (hidx : findSystemIndex raw msgs 0 = none) (hmv : msgs.mapM marshalValue = some values) :
    injectFetched raw marshalValue (.ok bs) (wrap (.obj members)) =
      wrap (.obj (replaceMember "messages"
        (.arr (systemMsg (FormatMemoryForInjection bs) :: values)) members)) := by
  have hlen : bs.length ≠ 0 := by
    intro h0
    exact hbs (List.length_eq_zero.mp h0)
  have hset : (JSON.obj members).setPath [.key "messages"]
      (.arr (systemMsg (FormatMemoryForInjection bs) :: values)) =
      some (.obj (replaceMember "messages"
        (.arr (systemMsg (FormatMemoryForInjection bs) :: values)) members)) := by
    rw [setPath_last_obj]
    simp [putMember, hmsgs]
  unfold injectFetched
  simp only [hlen, if_false, gjsonGetBytes_obj_key wrap hw, get_nil, hmsgs, Result.IsArray,
    Result.Array, hidx, hmv]
  rcases hw with rfl | rfl <;> simp [sjsonSetBytes, hset]

theorem injectFetched_marshal_fails (raw : JSON → String) (marshalValue : JSON → Option JSON)
    (bs : List MemoryBlock) (body : Body) (msgs : List JSON)
    (hmsgs : gjsonGetBytes body [.key "messages"] = some (.arr msgs))
    (hidx : findSystemIndex raw msgs 0 = none) (hmv : msgs.mapM marshalValue = none) :
    injectFetched raw marshalValue (.ok bs) body = body := by
  unfold injectFetched
  simp only [hmsgs, Result.IsArray, Result.Array, hidx, hmv]
  split <;> simp

theorem injectMemoryIntoRequest_fst (raw : JSON → String) (marshalValue : JSON → Option JSON)
    (http : Http) (client : Client) (body : Body) :
    (injectMemoryIntoRequest raw marshalValue http client body).1 =
      injectFetched raw marshalValue (client.GetMemory raw http).1 body := rfl

theorem injectMemoryIntoRequest_snd (raw : JSON → String) (marshalValue : JSON → Option JSON)
    (http : Http) (client : Client) (body : Body) :
    (injectMemoryIntoRequest raw marshalValue http client body).2 =
      (client.GetMemory raw http).2 := rfl

/-- C1: when the `messages` array of the body holds a message with role
`system` and the fetched block list `bs` is not empty,
`injectMemoryIntoRequest` returns a body whose `messages` array `out` has the
same length; at the index `i` of the first system message the content is the
string made of the original content followed by `FormatMemoryForInjection bs`
(memory appended), the other members of that message read as before, and
every other message, a later system message included, is unchanged. -/
theorem injectMemoryIntoRequest_appends_to_first_system
    (raw : JSON → String) (marshalValue : JSON → Option JSON) (http : Http) (client : Client)
    (body : Body) (bs : List MemoryBlock) (msgs : List JSON)
    (hfetch : (client.GetMemory raw http).1 = .ok bs) (hbs : bs ≠ [])
    (hmsgs : gjsonGetBytes body [.key "messages"] = some (.arr msgs))
    (hsys : ∃ m ∈ msgs, hasRole raw "system" m = true) :
    ∃ (i : Nat) (m m2 : JSON) (out : List JSON),
      msgs[i]? = some m ∧ hasRole raw "system" m = true ∧
      (∀ j, j < i → ∀ x, msgs[j]? = some x → hasRole raw "system" x = false) ∧
      gjsonGetBytes (injectMemoryIntoRequest raw marshalValue http client body).1
        [.key "messages"] = some (.arr out) ∧
      out.length = msgs.length ∧
      out[i]? = some m2 ∧
      Result.Get (some m2) [.key "content"] =
        some (.str (Result.String raw (Result.Get (some m) [.key "content"]) ++
          FormatMemoryForInjection bs)) ∧
      (∀ k, k ≠ "content" → Result.Get (some m2) [.key k] = Result.Get (some m) [.key k]) ∧
      (∀ j, j ≠ i → out[j]? = msgs[j]?) := by
  obtain ⟨wrap, members, hw, hbody, hlook⟩ := messages_array_is_obj body msgs hmsgs
  have hidx : ∃ i, findSystemIndex raw msgs 0 = some i := by
    cases hf : findSystemIndex raw msgs 0 with
    | some i => exact ⟨i, rfl⟩
    | none =>
      obtain ⟨m, hmem, hm⟩ := hsys
      have := (findSystemIndex_none raw msgs 0).mp hf m hmem
      rw [this] at hm
      exact absurd hm (by simp)
  obtain ⟨i, hi⟩ := hidx
  obtain ⟨_, m, hm, hrole, hbefore⟩ := findSystemIndex_some raw msgs 0 i hi
  simp only [Nat.sub_zero] at hm hbefore
  obtain ⟨mm, hmm⟩ := hasRole_is_obj raw "system" m (by decide) hrole
  subst hmm
  have hilt : i < msgs.length := by
    cases hlt : decide (i < msgs.length) with
    | true => simpa using hlt
    | false =>
      have hge : msgs.length ≤ i := by simpa using hlt
      rw [List.getElem?_eq_none hge] at hm
      exact absurd hm (by simp)
  rw [injectMemoryIntoRequest_fst, hfetch, hbody,
    injectFetched_system raw marshalValue bs wrap hw members mm msgs i hbs hlook hi hm]
  refine ⟨i, .obj mm,
    .obj (putMember "content" (.str (Result.String raw (lookupMember "content" mm) ++
      FormatMemoryForInjection bs)) mm),
    msgs.set i (.obj (putMember "content" (.str (Result.String raw
      (lookupMember "content" mm) ++ FormatMemoryForInjection bs)) mm)),
    hm, hrole, hbefore, ?_, ?_, ?_, ?_, ?_, ?_⟩
  · rw [gjsonGetBytes_obj_key wrap hw, get_nil]
    exact lookupMember_replace_self "messages" _ members (by simp [hlook])
  · simp
  · simp [List.getElem?_set, hilt]
  · rw [get_cons_some, get_nil, child_obj, get_cons_some, get_nil, child_obj]
    simp only [Seg.name]
    exact lookupMember_putMember_self "content" _ mm
  · intro k hk
    rw [get_cons_some, get_nil, child_obj, get_cons_some, get_nil, child_obj]
    simp only [Seg.name]
    exact lookupMember_putMember_of_ne "content" k _ mm hk
  · intro j hj
    have hji : ¬ i = j := fun e => hj e.symm
    simp [List.getElem?_set, hji]

/-- C1, at a sample input: the body with system message `A` and the fetched
block `L`/`V` of the sample server. -/
theorem injectMemoryIntoRequest_appends_to_first_system_witness :
    (sampleClient.GetMemory noRaw sampleHttp).1 = .ok [⟨"L", "V"⟩] ∧
    ∃ out, gjsonGetBytes
        (injectMemoryIntoRequest noRaw some sampleHttp sampleClient bodyWithSystem).1
        [.key "messages"] = some (.arr out) ∧ out.length = 2 := by
  refine ⟨rfl, ?_⟩
  obtain ⟨i, m, m2, out, _, _, _, hout, hlen, _⟩ :=
    injectMemoryIntoRequest_appends_to_first_system noRaw some sampleHttp sampleClient
      bodyWithSystem [⟨"L", "V"⟩]
      [.obj [("role", .str "system"), ("content", .str "A")],
       .obj [("role", .str "user"), ("content", .str "hi")]]
      rfl (by simp) rfl
      ⟨.obj [("role", .str "system"), ("content", .str "A")], by simp, rfl⟩
  exact ⟨out, hout, hlen⟩

theorem setPath_frame (doc d : JSON) (k : String) (rest : List Seg) (value : JSON)
    (hd : doc.setPath (.key k :: rest) value = some d) :
    ∀ k2, k2 ≠ k → d.child (.key k2) = doc.child (.key k2) := by
  intro k2 hk2
  rw [JSON.setPath] at hd
  cases hc : doc.child (.key k) with
  | some c =>
    obtain ⟨members, hdoc, _⟩ := child_key_some_is_obj doc c k hc
    subst hdoc
    rw [hc] at hd
    simp only [Option.map_eq_some'] at hd
    obtain ⟨c2, _, hd2⟩ := hd
    subst hd2
    simp only [JSON.replaceChild, Seg.name, child_obj]
    exact lookupMember_replace_of_ne k k2 c2 members hk2
  | none =>
    rw [hc] at hd
    cases doc with
    | obj members =>
      cases rest with
      | nil =>
        simp only [JSON.setMissing, Seg.name, Option.some.injEq] at hd
        subst hd
        simp only [child_obj, Seg.name]
        exact lookupMember_append_of_ne k k2 value members hk2
      | cons seg2 rest2 => simp [JSON.setMissing] at hd
    | null => simp [JSON.setMissing] at hd
    | bool b => simp [JSON.setMissing] at hd
    | num lit => simp [JSON.setMissing] at hd
    | str t => simp [JSON.setMissing] at hd
    | arr elems => simp [JSON.setMissing] at hd

theorem sjsonSetBytes_frame (body out : Body) (k : String) (rest : List Seg) (value : JSON)
    (h : sjsonSetBytes body (.key k :: rest) value = some out) :
    out.isValidJSON = body.isValidJSON ∧
      ∀ k2, k2 ≠ k → gjsonGetBytes out [.key k2] = gjsonGetBytes body [.key k2] := by
  cases body with
  | text bytes => simp [sjsonSetBytes] at h
  | json doc =>
    simp only [sjsonSetBytes, Option.map_eq_some'] at h
    obtain ⟨d, hd, hout⟩ := h
    subst hout
    refine ⟨rfl, ?_⟩
    intro k2 hk2
    simp only [gjsonGetBytes, get_cons_some, get_nil]
    exact setPath_frame doc d k rest value hd k2 hk2
  | malformed doc =>
    simp only [sjsonSetBytes, Option.map_eq_some'] at h
    obtain ⟨d, hd, hout⟩ := h
    subst hout
    refine ⟨rfl, ?_⟩
    intro k2 hk2
    simp only [gjsonGetBytes, get_cons_some, get_nil]
    exact setPath_frame doc d k rest value hd k2 hk2

theorem injectFetched_cases (raw : JSON → String) (marshalValue : JSON → Option JSON)
    (fetched : Except String (List MemoryBlock)) (body : Body) :
    injectFetched raw marshalValue fetched body = body ∨
      ∃ rest value, sjsonSetBytes body (.key "messages" :: rest) value =
        some (injectFetched raw marshalValue fetched body) := by
  unfold injectFetched
  cases fetched with
  | error e => exact Or.inl rfl
  | ok blocks =>
    by_cases hlen : blocks.length = 0
    · simp [hlen]
    · by_cases harr : Result.IsArray (gjsonGetBytes body [.key "messages"]) = true
      · simp only [hlen, if_false, harr, Bool.not_true, Bool.false_eq_true]
        cases hidx : findSystemIndex raw (Result.Array (gjsonGetBytes body [.key "messages"])) 0 with
        | some i =>
          simp only []
          cases hset : sjsonSetBytes body [.key "messages", .idx i, .key "content"]
              (.str (Result.String raw
                (gjsonGetBytes body [.key "messages", .idx i, .key "content"]) ++
                FormatMemoryForInjection blocks)) with
          | none => exact Or.inl rfl
          | some modified => exact Or.inr ⟨_, _, hset⟩
        | none =>
          simp only []
          cases hmv : (Result.Array (gjsonGetBytes body [.key "messages"])).mapM marshalValue with
          | none => exact Or.inl rfl
          | some values =>
            simp only []
            cases hset : sjsonSetBytes body [.key "messages"]
                (.arr (systemMsg (FormatMemoryForInjection blocks) :: values)) with
            | none => exact Or.inl rfl
            | some modified => exact Or.inr ⟨_, _, hset⟩
      · have harr2 : Result.IsArray (gjsonGetBytes body [.key "messages"]) = false := by
          simpa using harr
        simp [hlen, harr2]

/-- C4: `injectMemoryIntoRequest` returns the body it was given, unchanged,
when the memory fetch returns an error, when the fetched block list is empty,
when `messages` is missing or not an array, and when the mutation fails (the
encoding of the messages for the new array fails). -/
theorem injectMemoryIntoRequest_falls_back_to_body
    (raw : JSON → String) (marshalValue : JSON → Option JSON) (http : Http) (client : Client)
    (body : Body) :
    (∀ err, (client.GetMemory raw http).1 = .error err →
      (injectMemoryIntoRequest raw marshalValue http client body).1 = body) ∧
    ((client.GetMemory raw http).1 = .ok [] →
      (injectMemoryIntoRequest raw marshalValue http client body).1 = body) ∧
    (Result.IsArray (gjsonGetBytes body [.key "messages"]) = false →
      (injectMemoryIntoRequest raw marshalValue http client body).1 = body) ∧
    (∀ msgs, gjsonGetBytes body [.key "messages"] = some (.arr msgs) →
      findSystemIndex raw msgs 0 = none → msgs.mapM marshalValue = none →
      (injectMemoryIntoRequest raw marshalValue http client body).1 = body) := by
  rw [injectMemoryIntoRequest_fst]
  refine ⟨?_, ?_, ?_, ?_⟩
  · intro err herr
    rw [herr]
    rfl
  · intro hnil
    rw [hnil]
    rfl
  · intro harr
    cases hf : (client.GetMemory raw http).1 with
    | error e => rfl
    | ok blocks =>
      unfold injectFetched
      by_cases hlen : blocks.length = 0
      · simp [hlen]
      · simp [hlen, harr]
  · intro msgs hmsgs hidx hmv
    cases hf : (client.GetMemory raw http).1 with
    | error e => rfl
    | ok blocks => exact injectFetched_marshal_fails raw marshalValue blocks body msgs hmsgs hidx hmv

/-- C4, at sample inputs: the memory service down; a body without `messages`;
a body whose messages cannot be encoded again. -/
theorem injectMemoryIntoRequest_falls_back_to_body_witness :
    (sampleClient.GetMemory noRaw downHttp).1 = .error "connection refused" ∧
    (injectMemoryIntoRequest noRaw some downHttp sampleClient bodyWithSystem).1
      = bodyWithSystem ∧
    (injectMemoryIntoRequest noRaw some sampleHttp sampleClient bodyWithoutMessages).1
      = bodyWithoutMessages ∧
    (injectMemoryIntoRequest noRaw (fun _ => none) sampleHttp sampleClient bodyWithoutSystem).1
      = bodyWithoutSystem :=
  ⟨rfl,
    (injectMemoryIntoRequest_falls_back_to_body noRaw some downHttp sampleClient
      bodyWithSystem).1 "connection refused" rfl,
    (injectMemoryIntoRequest_falls_back_to_body noRaw some sampleHttp sampleClient
      bodyWithoutMessages).2.2.1 rfl,
    (injectMemoryIntoRequest_falls_back_to_body noRaw (fun _ => none) sampleHttp sampleClient
      bodyWithoutSystem).2.2.2 _ rfl rfl rfl⟩

/-! ### The message extractors -/

theorem foldl_userMessageStep_no_user (raw : JSON → String) (l : List JSON) (acc : String)
    (h : ∀ x ∈ l, hasRole raw "user" x = false) :
    l.foldl (userMessageStep raw) acc = acc := by
  induction l generalizing acc with
  | nil => rfl
  | cons x rest ih =>
    have hx : hasRole raw "user" x = false := h x (List.mem_cons_self x rest)
    simp only [List.foldl_cons, userMessageStep, hx]
    exact ih acc (fun y hy => h y (List.mem_cons_of_mem x hy))

/-- C7: `extractUserMessage` returns the content of the last element of
`messages` whose role is `user` (whatever comes before it, and whatever
non-user messages come after it), and the empty string when no element has
role `user` or when `messages` is absent or not an array. -/
theorem extractUserMessage_returns_last_user_content (raw : JSON → String) (body : Body) :
    (∀ (before after : List JSON) (m : JSON),
      gjsonGetBytes body [.key "messages"] = some (.arr (before ++ m :: after)) →
      hasRole raw "user" m = true →
      (∀ x ∈ after, hasRole raw "user" x = false) →
      extractUserMessage raw body = Result.String raw (Result.Get (some m) [.key "content"])) ∧
    (∀ msgs, gjsonGetBytes body [.key "messages"] = some (.arr msgs) →
      (∀ x ∈ msgs, hasRole raw "user" x = false) →
      extractUserMessage raw body = "") ∧
    (Result.IsArray (gjsonGetBytes body [.key "messages"]) = false →
      extractUserMessage raw body = "") := by
  refine ⟨?_, ?_, ?_⟩
  · intro before after m hmsgs hm hafter
    unfold extractUserMessage
    simp only [hmsgs, Result.IsArray, Result.Array, Bool.not_true, Bool.false_eq_true, if_false,
      List.foldl_append, List.foldl_cons]
    rw [foldl_userMessageStep_no_user raw after _ hafter]
    simp [userMessageStep, hm]
  · intro msgs hmsgs hnone
    unfold extractUserMessage
    simp only [hmsgs, Result.IsArray, Result.Array, Bool.not_true, Bool.false_eq_true, if_false]
    exact foldl_userMessageStep_no_user raw msgs "" hnone
  · intro harr
    unfold extractUserMessage
    simp [harr]

/-- C7, at the sample input: the messages `user: hi`, `assistant: hello`,
`user: bye` yield `bye`. -/
theorem extractUserMessage_returns_last_user_content_witness :
    extractUserMessage noRaw bodyWithoutSystem = "bye" :=
  ((extractUserMessage_returns_last_user_content noRaw bodyWithoutSystem).1
    [.obj [("role", .str "user"), ("content", .str "hi")],
     .obj [("role", .str "assistant"), ("content", .str "hello")]]
    []
    (.obj [("role", .str "user"), ("content", .str "bye")])
    rfl rfl (by simp)).trans rfl

/-- C8: `extractAssistantResponse` returns what stands at the fixed path
`choices.0.message.content`: the string there when there is one, the empty
string when the path is missing; of a `choices` array only the first element
is read. -/
theorem extractAssistantResponse_reads_first_choice (raw : JSON → String) (body : Body) :
    extractAssistantResponse raw body = Result.String raw
      (gjsonGetBytes body [.key "choices", .idx 0, .key "message", .key "content"]) ∧
    (∀ s, gjsonGetBytes body [.key "choices", .idx 0, .key "message", .key "content"]
        = some (.str s) → extractAssistantResponse raw body = s) ∧
    (gjsonGetBytes body [.key "choices", .idx 0, .key "message", .key "content"] = none →
      extractAssistantResponse raw body = "") ∧
    (∀ first others, gjsonGetBytes body [.key "choices"] = some (.arr (first :: others)) →
      extractAssistantResponse raw body =
        Result.String raw (Result.Get (some first) [.key "message", .key "content"])) := by
  have hmain : extractAssistantResponse raw body = Result.String raw
      (gjsonGetBytes body [.key "choices", .idx 0, .key "message", .key "content"]) := by
    unfold extractAssistantResponse
    by_cases hc : Result.String raw
        (gjsonGetBytes body [.key "choices", .idx 0, .key "message", .key "content"]) = ""
    · simp [hc]
    · simp [hc]
  refine ⟨hmain, ?_, ?_, ?_⟩
  · intro s hs
    rw [hmain, hs]
    rfl
  · intro hnone
    rw [hmain, hnone]
    rfl
  · intro first others hchoices
    rw [hmain]
    cases body with
    | text bytes => simp [gjsonGetBytes] at hchoices
    | json doc =>
      simp only [gjsonGetBytes, get_cons_some, get_nil] at hchoices ⊢
      rw [hchoices, get_cons_some, child_arr_idx]
      simp [get_cons_some]
    | malformed doc =>
      simp only [gjsonGetBytes, get_cons_some, get_nil] at hchoices ⊢
      rw [hchoices, get_cons_some, child_arr_idx]
      simp [get_cons_some]

/-- C8, at the sample input: a response whose first choice has the message
content `ok` yields `ok`. -/
theorem extractAssistantResponse_reads_first_choice_witness :
    extractAssistantResponse noRaw sampleResponse = "ok" :=
  (extractAssistantResponse_reads_first_choice noRaw sampleResponse).2.1 "ok" rfl

/-! ### Response capture -/

theorem writeAll_from {σ : Type} (W : σ → Bytes → σ × WriteResult) (ds : List Bytes)
    (w : σ) (buf : Bytes) :
    (responseCapture.writeAll W { ResponseWriter := w, body := buf } ds).1.body
        = buf ++ ds.flatten ∧
      (responseCapture.writeAll W { ResponseWriter := w, body := buf } ds).1.ResponseWriter
        = (writeAllDirect W w ds).1 ∧
      (responseCapture.writeAll W { ResponseWriter := w, body := buf } ds).2
        = (writeAllDirect W w ds).2 := by
  induction ds generalizing w buf with
  | nil => simp [responseCapture.writeAll, writeAllDirect]
  | cons d rest ih =>
    obtain ⟨h1, h2, h3⟩ := ih (W w d).1 (buf ++ d)
    simp only [responseCapture.writeAll, responseCapture.Write, writeAllDirect]
    refine ⟨?_, ?_, ?_⟩
    · rw [h1]
      simp [List.append_assoc]
    · exact h2
    · rw [h3]

theorem writeAllDirect_recording (ds : List Bytes) (received : List Bytes) :
    (writeAllDirect recordingWrite received ds).1 = received ++ ds := by
  induction ds generalizing received with
  | nil => simp [writeAllDirect]
  | cons d rest ih =>
    simp only [writeAllDirect, recordingWrite]
    rw [ih]
    simp

/-- C10: after the writes `d1, ..., dn` through the capture, starting from an
empty buffer, the buffer holds `d1 ++ ... ++ dn`; the embedded writer is in
the state, and has returned the results, of the same writes made on it
directly; and a writer that records what it receives has received exactly the
slices `d1, ..., dn`, in order. -/
theorem responseCapture_duplicates_writes {σ : Type} (W : σ → Bytes → σ × WriteResult)
    (w : σ) (ds : List Bytes) :
    (responseCapture.writeAll W { ResponseWriter := w, body := [] } ds).1.body = ds.flatten ∧
    (responseCapture.writeAll W { ResponseWriter := w, body := [] } ds).1.ResponseWriter
      = (writeAllDirect W w ds).1 ∧
    (responseCapture.writeAll W { ResponseWriter := w, body := [] } ds).2
      = (writeAllDirect W w ds).2 ∧
    (responseCapture.writeAll recordingWrite { ResponseWriter := [], body := [] }
      ds).1.ResponseWriter = ds := by
  obtain ⟨h1, h2, h3⟩ := writeAll_from W ds w []
  obtain ⟨_, h5, _⟩ := writeAll_from recordingWrite ds [] []
  refine ⟨by simpa using h1, h2, h3, ?_⟩
  rw [h5, writeAllDirect_recording]
  simp

/-! ### The middleware -/

theorem getMemory_without_agent (raw : JSON → String) (http : Http) (client : Client)
    (h : client.config.Enabled = false ∨ client.config.AgentID = "") :
    client.GetMemory raw http = (.ok [], []) := by
  unfold Client.GetMemory
  rcases h with h | h <;> simp [h]

theorem updateMemory_without_agent (http : Http) (client : Client) (u a : String)
    (h : client.config.Enabled = false ∨ client.config.AgentID = "") :
    client.UpdateMemory http u a = (none, []) := by
  unfold Client.UpdateMemory
  rcases h with h | h <;> simp [h]

/-- C5: when the request path does not contain `/chat/completions`, or the
client is nil, or its configuration has `Enabled = false`, or its `AgentID` is
empty, the body that reaches the downstream handler is the inbound body as it
is, and no request is made to the memory service (neither the fetch nor an
update). -/
theorem middleware_passes_request_through {σ : Type} (raw : JSON → String)
    (marshalValue : JSON → Option JSON) (decode : Bytes → Body) (http : Http)
    (W : σ → Bytes → σ × WriteResult) (client : Option Client)
    (next : Except String Body → List Bytes) (w : σ) (req : Request)
    (h : stringsContains req.Path "/chat/completions" = false ∨
      ∀ c, client = some c → c.config.Enabled = false ∨ c.config.AgentID = "") :
    (memoryInjectionMiddleware raw marshalValue decode http W client next w req).forwarded
      = req.Body ∧
    (memoryInjectionMiddleware raw marshalValue decode http W client next w req).fetches = [] ∧
    (memoryInjectionMiddleware raw marshalValue decode http W client next w req).posts = [] := by
  unfold memoryInjectionMiddleware
  by_cases hpath : stringsContains req.Path "/chat/completions" = true
  · have hcfg : ∀ c, client = some c → c.config.Enabled = false ∨ c.config.AgentID = "" := by
      rcases h with h | h
      · rw [hpath] at h
        exact absurd h (by simp)
      · exact h
    simp only [hpath, Bool.not_true, Bool.false_eq_true, if_false]
    cases client with
    | none => simp [passThrough]
    | some c =>
      simp only []
      by_cases hen : c.config.Enabled = true
      · have hagent : c.config.Enabled = false ∨ c.config.AgentID = "" := hcfg c rfl
        simp only [hen, Bool.not_true, Bool.false_eq_true, if_false]
        cases hbody : req.Body with
        | error e => simp [passThrough, hbody]
        | ok bodyBytes =>
          have hinj : injectMemoryIntoRequest raw marshalValue http c bodyBytes
              = (bodyBytes, []) := by
            unfold injectMemoryIntoRequest
            rw [getMemory_without_agent raw http c hagent]
            rfl
          simp only [hinj, updateMemory_without_agent http c _ _ hagent]
          refine ⟨trivial, trivial, ?_⟩
          split <;> try rfl
          split <;> rfl
      · have hen2 : c.config.Enabled = false := by simpa using hen
        simp [hen2, passThrough]
  · have hpath2 : stringsContains req.Path "/chat/completions" = false := by simpa using hpath
    simp [hpath2, passThrough]

/-- C5, at sample inputs: a request to another path with an enabled client,
and a chat completion request with a client whose agent id is empty. -/
theorem middleware_passes_request_through_witness :
    stringsContains "/v1/models" "/chat/completions" = false ∧
    (memoryInjectionMiddleware noRaw some sampleDecode sampleHttp recordingWrite
      (some sampleClient) sampleNext []
      { Path := "/v1/models", Body := .ok bodyWithSystem }).fetches = [] ∧
    (memoryInjectionMiddleware noRaw some sampleDecode sampleHttp recordingWrite
      (some clientWithoutAgent) sampleNext []
      { Path := "/v1/chat/completions", Body := .ok bodyWithSystem }).forwarded
      = .ok bodyWithSystem :=
  ⟨by decide,
    (middleware_passes_request_through noRaw some sampleDecode sampleHttp recordingWrite
      (some sampleClient) sampleNext []
      { Path := "/v1/models", Body := .ok bodyWithSystem } (Or.inl (by decide))).2.1,
    (middleware_passes_request_through noRaw some sampleDecode sampleHttp recordingWrite
      (some clientWithoutAgent) sampleNext []
      { Path := "/v1/chat/completions", Body := .ok bodyWithSystem }
      (Or.inr (fun c hc => by
        cases hc
        exact Or.inr rfl))).1⟩

/-! ### The post-response step -/

theorem middleware_intercepted {σ : Type} (raw : JSON → String)
    (marshalValue : JSON → Option JSON) (decode : Bytes → Body) (http : Http)
    (W : σ → Bytes → σ × WriteResult) (client : Client)
    (next : Except String Body → List Bytes) (w : σ) (req : Request) (bodyBytes : Body)
    (hpath : stringsContains req.Path "/chat/completions" = true)
    (hen : client.config.Enabled = true) (hbody : req.Body = .ok bodyBytes) :
    (memoryInjectionMiddleware raw marshalValue decode http W (some client) next w req).captured
      = (next (.ok (injectMemoryIntoRequest raw marshalValue http client bodyBytes).1)).flatten ∧
    (memoryInjectionMiddleware raw marshalValue decode http W (some client) next w req).updates
      = (if extractUserMessage raw bodyBytes ≠ "" ∧
          (next (.ok (injectMemoryIntoRequest raw marshalValue http client bodyBytes).1)).flatten
            ≠ [] ∧
          extractAssistantResponse raw (decode
            (next (.ok (injectMemoryIntoRequest raw marshalValue http client
              bodyBytes).1)).flatten) ≠ ""
        then [(extractUserMessage raw bodyBytes,
          extractAssistantResponse raw (decode
            (next (.ok (injectMemoryIntoRequest raw marshalValue http client
              bodyBytes).1)).flatten))]
        else []) ∧
    (memoryInjectionMiddleware raw marshalValue decode http W (some client) next w req).posts
      = (if extractUserMessage raw bodyBytes ≠ "" ∧
          (next (.ok (injectMemoryIntoRequest raw marshalValue http client bodyBytes).1)).flatten
            ≠ [] ∧
          extractAssistantResponse raw (decode
            (next (.ok (injectMemoryIntoRequest raw marshalValue http client
              bodyBytes).1)).flatten) ≠ ""
        then (client.UpdateMemory http (extractUserMessage raw bodyBytes)
          (extractAssistantResponse raw (decode
            (next (.ok (injectMemoryIntoRequest raw marshalValue http client
              bodyBytes).1)).flatten))).2
        else []) := by
  have hcap := (writeAll_from W
    (next (.ok (injectMemoryIntoRequest raw marshalValue http client bodyBytes).1)) w []).1
  simp only [List.nil_append] at hcap
  unfold memoryInjectionMiddleware
  simp only [hpath, hen, hbody, Bool.not_true, Bool.false_eq_true, if_false]
  rw [hcap]
  refine ⟨rfl, ?_, ?_⟩
  · generalize extractUserMessage raw bodyBytes = u
    generalize (next (.ok (injectMemoryIntoRequest raw marshalValue http client
      bodyBytes).1)).flatten = cap
    generalize extractAssistantResponse raw (decode cap) = a
    by_cases hu : u = ""
    · simp [hu]
    · by_cases hc : cap = []
      · simp [hc]
      · have hlen : 0 < cap.length := List.length_pos.mpr hc
        by_cases ha : a = ""
        · simp [ha]
        · simp [hu, hc, ha, hlen]
  · generalize extractUserMessage raw bodyBytes = u
    generalize (next (.ok (injectMemoryIntoRequest raw marshalValue http client
      bodyBytes).1)).flatten = cap
    generalize extractAssistantResponse raw (decode cap) = a
    by_cases hu : u = ""
    · simp [hu]
    · by_cases hc : cap = []
      · simp [hc]
      · have hlen : 0 < cap.length := List.length_pos.mpr hc
        by_cases ha : a = ""
        · simp [ha]
        · simp [hu, hc, ha, hlen]

/-- C12: for a request that is intercepted (the path contains
`/chat/completions`, the client is enabled, the body has been read), the
capture buffer holds the bytes the handler wrote, and the post-response step
calls `UpdateMemory` exactly when the user message extracted from the original
body, the capture buffer and the assistant text extracted from the captured
bytes are all non-empty; the call is made once, with that user message and
that assistant text.  In particular a response from which no assistant text is
extracted (a streamed one) triggers no update. -/
theorem middleware_updates_memory_iff {σ : Type} (raw : JSON → String)
    (marshalValue : JSON → Option JSON) (decode : Bytes → Body) (http : Http)
    (W : σ → Bytes → σ × WriteResult) (client : Client)
    (next : Except String Body → List Bytes) (w : σ) (req : Request) (bodyBytes : Body)
    (hpath : stringsContains req.Path "/chat/completions" = true)
    (hen : client.config.Enabled = true) (hbody : req.Body = .ok bodyBytes) :
    (memoryInjectionMiddleware raw marshalValue decode http W (some client) next w req).captured
      = (next (.ok (injectMemoryIntoRequest raw marshalValue http client bodyBytes).1)).flatten ∧
    ((extractUserMessage raw bodyBytes ≠ "" ∧
        (memoryInjectionMiddleware raw marshalValue decode http W (some client) next w
          req).captured ≠ [] ∧
        extractAssistantResponse raw (decode (memoryInjectionMiddleware raw marshalValue decode
          http W (some client) next w req).captured) ≠ "") →
      (memoryInjectionMiddleware raw marshalValue decode http W (some client) next w req).updates
        = [(extractUserMessage raw bodyBytes,
            extractAssistantResponse raw (decode (memoryInjectionMiddleware raw marshalValue
              decode http W (some client) next w req).captured))] ∧
      (memoryInjectionMiddleware raw marshalValue decode http W (some client) next w req).posts
        = (client.UpdateMemory http (extractUserMessage raw bodyBytes)
            (extractAssistantResponse raw (decode (memoryInjectionMiddleware raw marshalValue
              decode http W (some client) next w req).captured))).2) ∧
    (¬ (extractUserMessage raw bodyBytes ≠ "" ∧
        (memoryInjectionMiddleware raw marshalValue decode http W (some client) next w
          req).captured ≠ [] ∧
        extractAssistantResponse raw (decode (memoryInjectionMiddleware raw marshalValue decode
          http W (some client) next w req).captured) ≠ "") →
      (memoryInjectionMiddleware raw marshalValue decode http W (some client) next w req).updates
        = [] ∧
      (memoryInjectionMiddleware raw marshalValue decode http W (some client) next w req).posts
        = []) ∧
    (extractAssistantResponse raw (decode (memoryInjectionMiddleware raw marshalValue decode
        http W (some client) next w req).captured) = "" →
      (memoryInjectionMiddleware raw marshalValue decode http W (some client) next w req).updates
        = []) := by
  obtain ⟨hcap, hupd, hposts⟩ := middleware_intercepted raw marshalValue decode http W client
    next w req bodyBytes hpath hen hbody
  rw [hupd, hposts, hcap]
  refine ⟨rfl, ?_, ?_, ?_⟩
  · intro hcond
    rw [if_pos hcond, if_pos hcond]
    exact ⟨rfl, rfl⟩
  · intro hcond
    rw [if_neg hcond, if_neg hcond]
    exact ⟨rfl, rfl⟩
  · intro ha
    have hcond : ¬ (extractUserMessage raw bodyBytes ≠ "" ∧
        (next (.ok (injectMemoryIntoRequest raw marshalValue http client bodyBytes).1)).flatten
          ≠ [] ∧
        extractAssistantResponse raw (decode
          (next (.ok (injectMemoryIntoRequest raw marshalValue http client
            bodyBytes).1)).flatten) ≠ "") := fun h => h.2.2 ha
    rw [if_neg hcond]

/-- C12, at a sample input: a chat completion request whose last user message
is `bye`, answered with the sample response, leads to one call
`UpdateMemory(ctx, "bye", "ok")`. -/
theorem middleware_updates_memory_iff_witness :
    stringsContains "/v1/chat/completions" "/chat/completions" = true ∧
    (memoryInjectionMiddleware noRaw some sampleDecode sampleHttp recordingWrite
      (some sampleClient) sampleNext []
      { Path := "/v1/chat/completions", Body := .ok bodyWithoutSystem }).updates
      = [("bye", "ok")] :=
  ⟨by decide,
    ((middleware_updates_memory_iff noRaw some sampleDecode sampleHttp recordingWrite
      sampleClient sampleNext []
      { Path := "/v1/chat/completions", Body := .ok bodyWithoutSystem } bodyWithoutSystem
      (by decide) rfl rfl).2.1 ⟨by decide, by decide, by decide⟩).1.trans rfl⟩

/-! ### The formatter on blocks without values -/

theorem format_of_ne_nil (bs : List MemoryBlock) (hbs : bs ≠ []) :
    FormatMemoryForInjection bs =
      memoryHeader ++ (String.join ((bs.filter (fun b => b.Value ≠ "")).map
        (fun b => "[" ++ b.Label ++ "]\n" ++ b.Value ++ "\n\n")) ++ memoryFooter) := by
  unfold FormatMemoryForInjection
  cases bs with
  | nil => exact absurd rfl hbs
  | cons b rest =>
    simp only [List.length_cons, Nat.add_one_ne_zero, if_false]
    rw [foldl_formatStep]
    simp [memoryHeader, memoryFooter, String.append_assoc]

theorem format_ne_empty (bs : List MemoryBlock) (hbs : bs ≠ []) :
    FormatMemoryForInjection bs ≠ "" := by
  intro h
  have hlen := congrArg String.length h
  rw [format_of_ne_nil bs hbs, String.length_append] at hlen
  have hheader : 0 < memoryHeader.length := by decide
  have hzero : "".length = 0 := rfl
  omega

theorem filter_values_of_all_empty (bs : List MemoryBlock) (h : ∀ b ∈ bs, b.Value = "") :
    bs.filter (fun b => b.Value ≠ "") = [] := by
  rw [List.filter_eq_nil_iff]
  intro b hb
  simp [h b hb]

theorem append_ne_self (s t : String) (ht : t ≠ "") : s ≠ s ++ t := by
  intro h
  have hlen := congrArg String.length h
  rw [String.length_append] at hlen
  have ht0 : t.length = 0 := by omega
  apply ht
  have hdata : t.data = [] := List.length_eq_zero.mp ht0
  cases t with
  | mk data =>
    simp only at hdata
    rw [hdata]

theorem get_system_content_after_inject (wrap : JSON → Body) (hw : IsDocBody wrap)
    (new : JSON) (members mm : List (String × JSON)) (msgs : List JSON) (i : Nat)
    (hmsgs : lookupMember "messages" members = some (.arr msgs))
    (hm : msgs[i]? = some (.obj mm)) :
    gjsonGetBytes (wrap (.obj (replaceMember "messages"
        (.arr (msgs.set i (.obj (putMember "content" new mm)))) members)))
      [.key "messages", .idx i, .key "content"] = some new ∧
    gjsonGetBytes (wrap (.obj members)) [.key "messages", .idx i, .key "content"]
      = lookupMember "content" mm := by
  have hilt : i < msgs.length := by
    cases hlt : decide (i < msgs.length) with
    | true => simpa using hlt
    | false =>
      have hge : msgs.length ≤ i := by simpa using hlt
      rw [List.getElem?_eq_none hge] at hm
      exact absurd hm (by simp)
  constructor
  · rw [gjsonGetBytes_obj_key wrap hw,
      lookupMember_replace_self "messages" _ members (by simp [hmsgs]),
      get_cons_some, child_arr_idx]
    simp only [List.getElem?_set, hilt, if_true]
    rw [get_cons_some, child_obj, get_nil]
    exact lookupMember_putMember_self "content" new mm
  · rw [gjsonGetBytes_obj_key wrap hw, hmsgs, get_cons_some, child_arr_idx, hm, get_cons_some,
      child_obj, get_nil]
    rfl

/-- C13: `FormatMemoryForInjection bs` is the empty string exactly when `bs` is
the empty list.  For a non-empty list the result is the fixed header, the
sections, and the fixed footer; when every block has an empty value it is the
header followed by the footer.  For such a list `injectMemoryIntoRequest`
does not skip the injection: the content of the first system message becomes
its old content followed by header and footer, and the body returned differs
from the body given. -/
theorem format_empty_iff_no_blocks (raw : JSON → String) (marshalValue : JSON → Option JSON)
    (http : Http) (client : Client) (body : Body) (bs : List MemoryBlock) (msgs : List JSON) :
    (FormatMemoryForInjection bs = "" ↔ bs = []) ∧
    (bs ≠ [] → ∃ sections,
      FormatMemoryForInjection bs = memoryHeader ++ (sections ++ memoryFooter)) ∧
    (bs ≠ [] → (∀ b ∈ bs, b.Value = "") →
      FormatMemoryForInjection bs = memoryHeader ++ memoryFooter) ∧
    ((client.GetMemory raw http).1 = .ok bs → bs ≠ [] → (∀ b ∈ bs, b.Value = "") →
      gjsonGetBytes body [.key "messages"] = some (.arr msgs) →
      (∃ m ∈ msgs, hasRole raw "system" m = true) →
      ∃ i, findSystemIndex raw msgs 0 = some i ∧
        gjsonGetBytes (injectMemoryIntoRequest raw marshalValue http client body).1
            [.key "messages", .idx i, .key "content"] =
          some (.str (Result.String raw
            (gjsonGetBytes body [.key "messages", .idx i, .key "content"]) ++
            (memoryHeader ++ memoryFooter))) ∧
        (injectMemoryIntoRequest raw marshalValue http client body).1 ≠ body) := by
  have hall : bs ≠ [] → (∀ b ∈ bs, b.Value = "") →
      FormatMemoryForInjection bs = memoryHeader ++ memoryFooter := by
    intro hbs hempty
    rw [format_of_ne_nil bs hbs, filter_values_of_all_empty bs hempty]
    simp [String.join]
  refine ⟨?_, ?_, hall, ?_⟩
  · constructor
    · intro h
      cases hb : decide (bs = []) with
      | true => simpa using hb
      | false =>
        have hne : bs ≠ [] := by simpa using hb
        exact absurd h (format_ne_empty bs hne)
    · intro h
      subst h
      rfl
  · intro hbs
    exact ⟨_, format_of_ne_nil bs hbs⟩
  · intro hfetch hbs hempty hmsgs hsys
    obtain ⟨wrap, members, hw, hbody, hlook⟩ := messages_array_is_obj body msgs hmsgs
    have hidx : ∃ i, findSystemIndex raw msgs 0 = some i := by
      cases hf : findSystemIndex raw msgs 0 with
      | some i => exact ⟨i, rfl⟩
      | none =>
        obtain ⟨m, hmem, hm⟩ := hsys
        have := (findSystemIndex_none raw msgs 0).mp hf m hmem
        rw [this] at hm
        exact absurd hm (by simp)
    obtain ⟨i, hi⟩ := hidx
    obtain ⟨_, m, hm, hrole, _⟩ := findSystemIndex_some raw msgs 0 i hi
    simp only [Nat.sub_zero] at hm
    obtain ⟨mm, hmm⟩ := hasRole_is_obj raw "system" m (by decide) hrole
    subst hmm
    subst hbody
    obtain ⟨hnew, hold⟩ := get_system_content_after_inject wrap hw
      (.str (Result.String raw (lookupMember "content" mm) ++ FormatMemoryForInjection bs))
      members mm msgs i hlook hm
    have hout := injectFetched_system raw marshalValue bs wrap hw members mm msgs i hbs hlook
      hi hm
    rw [injectMemoryIntoRequest_fst, hfetch, hout]
    refine ⟨i, hi, ?_, ?_⟩
    · rw [hnew, hold, hall hbs hempty]
    intro heq
    have hget := congrArg
      (fun b => gjsonGetBytes b [.key "messages", .idx i, .key "content"]) heq
    simp only [] at hget
    rw [hold, hnew] at hget
    have hstr := congrArg (Result.String raw) hget
    rw [← hget] at hstr
    simp only [Result.String] at hstr
    exact append_ne_self _ _ (format_ne_empty bs hbs) hstr.symm

/-- C13, at a sample input: the server returns one block with an empty value,
and the system message `A` of the request still receives header and footer. -/
theorem format_empty_iff_no_blocks_witness :
    (sampleClient.GetMemory noRaw emptyValueHttp).1 = .ok [⟨"L", ""⟩] ∧
    FormatMemoryForInjection [⟨"L", ""⟩] = memoryHeader ++ memoryFooter ∧
    (injectMemoryIntoRequest noRaw some emptyValueHttp sampleClient bodyWithSystem).1
      ≠ bodyWithSystem := by
  have h := format_empty_iff_no_blocks noRaw some emptyValueHttp sampleClient bodyWithSystem
    [⟨"L", ""⟩]
    [.obj [("role", .str "system"), ("content", .str "A")],
     .obj [("role", .str "user"), ("content", .str "hi")]]
  refine ⟨rfl, h.2.2.1 (by simp) (by simp), ?_⟩
  obtain ⟨_, _, _, hne⟩ := h.2.2.2 rfl (by simp) (by simp) rfl
    ⟨.obj [("role", .str "system"), ("content", .str "A")], by simp, rfl⟩
  exact hne

/-! ### The round trip of a message through Go values -/

theorem lookupMember_insertMember (k : String) (p : String × JSON)
    (l : List (String × JSON)) (hfresh : lookupMember p.1 l = none) :
    lookupMember k (insertMember p l) =
      if p.1 = k then some p.2 else lookupMember k l := by
  induction l with
  | nil =>
    obtain ⟨pk, pv⟩ := p
    simp [insertMember, lookupMember]
  | cons q rest ih =>
    obtain ⟨pk, pv⟩ := p
    obtain ⟨qk, qv⟩ := q
    have hqp : ¬ qk = pk := by
      intro e
      simp [lookupMember, e] at hfresh
    have hrest : lookupMember pk rest = none := by
      simpa [lookupMember, hqp] using hfresh
    have ih2 := ih hrest
    simp only at ih2
    by_cases hless : keyLess pk.data qk.data = true
    · simp [insertMember, hless, lookupMember]
    · simp only [insertMember, hless, lookupMember, ih2]
      by_cases hpk : pk = k
      · subst hpk
        simp [hqp]
      · simp [hpk]

theorem lookupMember_sortMembers (k : String) (l : List (String × JSON))
    (hnodup : (l.map Prod.fst).Nodup) :
    lookupMember k (sortMembers l) = lookupMember k l := by
  induction l generalizing k with
  | nil => rfl
  | cons p rest ih =>
    obtain ⟨pk, pv⟩ := p
    simp only [List.map_cons, List.nodup_cons] at hnodup
    obtain ⟨hnot, hrest⟩ := hnodup
    have hfresh0 : lookupMember pk rest = none := by
      clear ih hrest
      induction rest with
      | nil => rfl
      | cons q rest2 ih2 =>
        obtain ⟨qk, qv⟩ := q
        simp only [List.map_cons, List.mem_cons, not_or] at hnot
        have hq : ¬ qk = pk := fun e => hnot.1 e.symm
        simp [lookupMember, hq, ih2 hnot.2]
    have hfresh : lookupMember pk (sortMembers rest) = none := by
      rw [ih pk hrest]
      exact hfresh0
    simp only [sortMembers]
    rw [lookupMember_insertMember k (pk, pv) (sortMembers rest) hfresh, ih k hrest]
    by_cases hpk : pk = k
    · simp [lookupMember, hpk]
    · simp [lookupMember, hpk]

theorem lookupMember_none_iff (k : String) (l : List (String × JSON)) :
    lookupMember k l = none ↔ k ∉ l.map Prod.fst := by
  induction l with
  | nil => simp [lookupMember]
  | cons q rest ih =>
    obtain ⟨qk, qv⟩ := q
    by_cases hq : qk = k
    · simp [lookupMember, hq]
    · have hq2 : ¬ k = qk := fun e => hq e.symm
      simp [lookupMember, hq, hq2, ih]

theorem goMarshalMembers_lookup (f : String → Option String) (ms : List (String × JSON)) :
    ∀ (seen : List String) (ms2 : List (String × JSON)),
      goMarshalMembers f seen ms = some ms2 →
      ∀ k, lookupMember k ms2 =
        if k ∈ seen then none else (lookupMember k ms).bind (goMarshalValue f) := by
  induction ms with
  | nil =>
    intro seen ms2 h k
    simp only [goMarshalMembers, Option.some.injEq] at h
    subst h
    simp [lookupMember]
  | cons p rest ih =>
    obtain ⟨pk, pv⟩ := p
    intro seen ms2 h k
    rw [goMarshalMembers] at h
    by_cases hseen : seen.contains pk = true
    · simp only [hseen, if_true] at h
      rw [ih seen ms2 h k]
      have hmem : pk ∈ seen := by simpa using hseen
      by_cases hk : k ∈ seen
      · simp [hk]
      · have hne : ¬ pk = k := by
          intro e
          subst e
          exact hk hmem
        simp [hk, lookupMember, hne]
    · have hseen2 : seen.contains pk = false := by simpa using hseen
      simp only [hseen2, Bool.false_eq_true, if_false] at h
      have hnot : pk ∉ seen := by simpa using hseen
      cases hv : goMarshalValue f pv with
      | none => simp [hv] at h
      | some v2 =>
        cases hr : goMarshalMembers f (pk :: seen) rest with
        | none => simp [hv, hr] at h
        | some rest2 =>
          simp only [hv, hr, Option.some.injEq] at h
          subst h
          have ih2 := ih (pk :: seen) rest2 hr k
          by_cases hpk : pk = k
          · subst hpk
            simp [lookupMember, hnot, hv]
          · have hkp : ¬ k = pk := fun e => hpk e.symm
            simp only [lookupMember, hpk, beq_iff_eq, if_false, ih2, List.mem_cons, hkp,
              false_or]

theorem goMarshalMembers_nodup (f : String → Option String) (ms : List (String × JSON)) :
    ∀ (seen : List String) (ms2 : List (String × JSON)),
      goMarshalMembers f seen ms = some ms2 → (ms2.map Prod.fst).Nodup := by
  induction ms with
  | nil =>
    intro seen ms2 h
    simp only [goMarshalMembers, Option.some.injEq] at h
    subst h
    simp
  | cons p rest ih =>
    obtain ⟨pk, pv⟩ := p
    intro seen ms2 h
    rw [goMarshalMembers] at h
    by_cases hseen : seen.contains pk = true
    · simp only [hseen, if_true] at h
      exact ih seen ms2 h
    · have hseen2 : seen.contains pk = false := by simpa using hseen
      simp only [hseen2, Bool.false_eq_true, if_false] at h
      cases hv : goMarshalValue f pv with
      | none => simp [hv] at h
      | some v2 =>
        cases hr : goMarshalMembers f (pk :: seen) rest with
        | none => simp [hv, hr] at h
        | some rest2 =>
          simp only [hv, hr, Option.some.injEq] at h
          subst h
          have hfresh := goMarshalMembers_lookup f rest (pk :: seen) rest2 hr pk
          simp only [List.mem_cons, true_or, if_true] at hfresh
          simp only [List.map_cons, List.nodup_cons]
          exact ⟨(lookupMember_none_iff pk rest2).mp hfresh, ih (pk :: seen) rest2 hr⟩

theorem goMarshalValue_members (f : String → Option String) (m m2 : JSON)
    (h : goMarshalValue f m = some m2) (k : String) :
    Result.Get (some m2) [.key k] = (Result.Get (some m) [.key k]).bind (goMarshalValue f) := by
  rw [get_cons_some, get_nil, get_cons_some, get_nil]
  cases m with
  | null =>
    simp only [goMarshalValue, Option.some.injEq] at h
    subst h
    simp [JSON.child]
  | bool b =>
    simp only [goMarshalValue, Option.some.injEq] at h
    subst h
    simp [JSON.child]
  | str t =>
    simp only [goMarshalValue, Option.some.injEq] at h
    subst h
    simp [JSON.child]
  | num lit =>
    simp only [goMarshalValue, Option.map_eq_some'] at h
    obtain ⟨t, _, ht⟩ := h
    subst ht
    simp [JSON.child]
  | arr elems =>
    simp only [goMarshalValue, Option.map_eq_some'] at h
    obtain ⟨t, _, ht⟩ := h
    subst ht
    simp [JSON.child]
  | obj members =>
    simp only [goMarshalValue, Option.map_eq_some'] at h
    obtain ⟨ms2, hms, ht⟩ := h
    subst ht
    rw [child_obj, child_obj]
    simp only [Seg.name]
    rw [lookupMember_sortMembers k ms2 (goMarshalMembers_nodup f members [] ms2 hms),
      goMarshalMembers_lookup f members [] ms2 hms k]
    simp

theorem mapM_some_getElem (g : JSON → Option JSON) (l : List JSON) :
    ∀ values : List JSON, l.mapM g = some values →
      values.length = l.length ∧ ∀ i : Nat, values[i]? = (l[i]?).bind g := by
  induction l with
  | nil =>
    intro values h
    rw [List.mapM_nil] at h
    cases h
    simp
  | cons m rest ih =>
    intro values h
    rw [List.mapM_cons] at h
    cases hm : g m with
    | none =>
      rw [hm] at h
      cases h
    | some m2 =>
      cases hr : rest.mapM g with
      | none =>
        rw [hm, hr] at h
        cases h
      | some rest2 =>
        rw [hm, hr] at h
        cases h
        obtain ⟨hlen, hget⟩ := ih rest2 hr
        refine ⟨by simp [hlen], ?_⟩
        intro i
        cases i with
        | zero => simp [hm]
        | succ j => simpa using hget j

theorem mapM_of_all_some (g : JSON → Option JSON) (l : List JSON)
    (h : ∀ m ∈ l, g m ≠ none) : ∃ values, l.mapM g = some values := by
  induction l with
  | nil => exact ⟨[], rfl⟩
  | cons m rest ih =>
    obtain ⟨rest2, hrest⟩ := ih (fun x hx => h x (List.mem_cons_of_mem m hx))
    cases hm : g m with
    | none => exact absurd hm (h m (List.mem_cons_self m rest))
    | some m2 =>
      refine ⟨m2 :: rest2, ?_⟩
      rw [List.mapM_cons, hm, hrest]
      rfl

/-- C2, as amended: when no message of the `messages` array has role `system`,
the fetched block list `bs` is not empty, and `json.Marshal` can encode every
message, `injectMemoryIntoRequest` returns a body whose `messages` array is one
longer.  Element 0 is the message with role `system` and content
`You are an AI assistant.` followed by `FormatMemoryForInjection bs`.  Element
`i + 1` is the original element `i` written again by the JSON library
(`goMarshalValue`): every member read from it is the member read from the
original, written again, and a member that is a string reads as before. -/
theorem injectMemoryIntoRequest_prepends_system_message
    (raw : JSON → String) (float64 : String → Option String) (http : Http) (client : Client)
    (body : Body) (bs : List MemoryBlock) (msgs : List JSON)
    (hfetch : (client.GetMemory raw http).1 = .ok bs) (hbs : bs ≠ [])
    (hmsgs : gjsonGetBytes body [.key "messages"] = some (.arr msgs))
    (hnone : ∀ m ∈ msgs, hasRole raw "system" m = false)
    (hencode : ∀ m ∈ msgs, goMarshalValue float64 m ≠ none) :
    ∃ out : List JSON,
      gjsonGetBytes
        (injectMemoryIntoRequest raw (goMarshalValue float64) http client body).1
        [.key "messages"] = some (.arr out) ∧
      out.length = msgs.length + 1 ∧
      out[0]? = some (.obj [("content", .str ("You are an AI assistant." ++
        FormatMemoryForInjection bs)), ("role", .str "system")]) ∧
      (∀ (i : Nat) (m : JSON), msgs[i]? = some m →
        ∃ m2, out[i + 1]? = some m2 ∧ goMarshalValue float64 m = some m2 ∧
          ∀ k, Result.Get (some m2) [.key k] =
            (Result.Get (some m) [.key k]).bind (goMarshalValue float64)) ∧
      (∀ (i : Nat) (m : JSON) (k s : String), msgs[i]? = some m →
        Result.Get (some m) [.key k] = some (.str s) →
        ∃ m2, out[i + 1]? = some m2 ∧ Result.Get (some m2) [.key k] = some (.str s)) := by
  obtain ⟨wrap, members, hw, hbody, hlook⟩ := messages_array_is_obj body msgs hmsgs
  have hidx : findSystemIndex raw msgs 0 = none := (findSystemIndex_none raw msgs 0).mpr hnone
  obtain ⟨values, hmv⟩ := mapM_of_all_some (goMarshalValue float64) msgs hencode
  obtain ⟨_, hget⟩ := mapM_some_getElem (goMarshalValue float64) msgs values hmv
  have hshift : ∀ (i : Nat) (m : JSON), msgs[i]? = some m →
      ∃ m2, (systemMsg (FormatMemoryForInjection bs) :: values)[i + 1]? = some m2 ∧
        goMarshalValue float64 m = some m2 ∧
        ∀ k, Result.Get (some m2) [.key k] =
          (Result.Get (some m) [.key k]).bind (goMarshalValue float64) := by
    intro i m hm
    have hvi := hget i
    rw [hm] at hvi
    simp only [Option.some_bind] at hvi
    cases hg : goMarshalValue float64 m with
    | none =>
      have hmem : m ∈ msgs := List.getElem?_mem hm
      exact absurd hg (hencode m hmem)
    | some m2 =>
      rw [hg] at hvi
      exact ⟨m2, by simpa using hvi, rfl, goMarshalValue_members float64 m m2 hg⟩
  rw [injectMemoryIntoRequest_fst, hfetch, hbody,
    injectFetched_prepend raw (goMarshalValue float64) bs wrap hw members msgs values hbs hlook
      hidx hmv]
  refine ⟨systemMsg (FormatMemoryForInjection bs) :: values, ?_, ?_, ?_, hshift, ?_⟩
  · rw [gjsonGetBytes_obj_key wrap hw, get_nil]
    exact lookupMember_replace_self "messages" _ members (by simp [hlook])
  · obtain ⟨hlen, _⟩ := mapM_some_getElem (goMarshalValue float64) msgs values hmv
    simp [hlen]
  · simp [systemMsg]
  · intro i m k s hm hk
    obtain ⟨m2, hout, _, hmembers⟩ := hshift i m hm
    refine ⟨m2, hout, ?_⟩
    rw [hmembers k, hk]
    rfl

/-- C2, at a sample input: the body without system message and the fetched
block `L`/`V` of the sample server. -/
theorem injectMemoryIntoRequest_prepends_system_message_witness :
    (sampleClient.GetMemory noRaw sampleHttp).1 = .ok [⟨"L", "V"⟩] ∧
    ∃ out, gjsonGetBytes
        (injectMemoryIntoRequest noRaw (goMarshalValue (float64Text some)) sampleHttp
          sampleClient bodyWithoutSystem).1
        [.key "messages"] = some (.arr out) ∧ out.length = 4 := by
  refine ⟨rfl, ?_⟩
  obtain ⟨out, hout, hlen, _⟩ :=
    injectMemoryIntoRequest_prepends_system_message noRaw (float64Text some) sampleHttp
      sampleClient bodyWithoutSystem [⟨"L", "V"⟩]
      [.obj [("role", .str "user"), ("content", .str "hi")],
       .obj [("role", .str "assistant"), ("content", .str "hello")],
       .obj [("role", .str "user"), ("content", .str "bye")]]
      rfl (by simp) rfl
      (by
        intro m hm
        simp only [List.mem_cons, List.mem_singleton, List.not_mem_nil, or_false] at hm
        rcases hm with h | h | h <;> subst h <;> rfl)
      (by
        intro m hm
        simp only [List.mem_cons, List.mem_singleton, List.not_mem_nil, or_false] at hm
        rcases hm with h | h | h <;> subst h <;>
          simp [goMarshalValue, goMarshalMembers])
  exact ⟨out, hout, hlen⟩

/-- C2 as stated fails.  A body without system message, one of whose messages
carries the number `1e999`, comes back unchanged (one message, no system
message prepended), because `json.Marshal` cannot encode that number.  And
where the encoding succeeds, the shifted messages are written with their keys
sorted: the message written `role`, `content` comes back as `content`,
`role`. -/
theorem injectMemoryIntoRequest_prepend_rewrites_or_gives_up :
    (sampleClient.GetMemory noRaw sampleHttp).1 = .ok [⟨"L", "V"⟩] ∧
    gjsonGetBytes bodyWithHugeNumber [.key "messages"] =
      some (.arr [.obj [("role", .str "user"), ("content", .str "hi"), ("n", .num "1e999")]]) ∧
    gjsonGetBytes
      (injectMemoryIntoRequest noRaw (goMarshalValue (float64Text some)) sampleHttp
        sampleClient bodyWithHugeNumber).1 [.key "messages"] =
      some (.arr [.obj [("role", .str "user"), ("content", .str "hi"), ("n", .num "1e999")]]) ∧
    gjsonGetBytes bodyWithoutSystem [.key "messages", .idx 0] =
      some (.obj [("role", .str "user"), ("content", .str "hi")]) ∧
    gjsonGetBytes
      (injectMemoryIntoRequest noRaw (goMarshalValue (float64Text some)) sampleHttp
        sampleClient bodyWithoutSystem).1 [.key "messages", .idx 1] =
      some (.obj [("content", .str "hi"), ("role", .str "user")]) :=
  ⟨rfl, rfl, rfl, rfl, rfl⟩

/-! ### The output against the input -/

theorem isArray_eq_some (r : Result) (h : Result.IsArray r = true) :
    ∃ elems, r = some (.arr elems) := by
  cases r with
  | none => simp [Result.IsArray] at h
  | some v =>
    cases v with
    | arr elems => exact ⟨elems, rfl⟩
    | null => simp [Result.IsArray] at h
    | bool b => simp [Result.IsArray] at h
    | num lit => simp [Result.IsArray] at h
    | str t => simp [Result.IsArray] at h
    | obj members => simp [Result.IsArray] at h

theorem injectFetched_structure (raw : JSON → String) (marshalValue : JSON → Option JSON)
    (fetched : Except String (List MemoryBlock)) (body : Body) :
    injectFetched raw marshalValue fetched body = body ∨
    (∃ (bs : List MemoryBlock) (msgs : List JSON) (i : Nat) (m m2 : JSON),
      fetched = .ok bs ∧ bs ≠ [] ∧
      gjsonGetBytes body [.key "messages"] = some (.arr msgs) ∧
      findSystemIndex raw msgs 0 = some i ∧ msgs[i]? = some m ∧
      gjsonGetBytes (injectFetched raw marshalValue fetched body) [.key "messages"] =
        some (.arr (msgs.set i m2)) ∧
      Result.Get (some m2) [.key "content"] =
        some (.str (Result.String raw (Result.Get (some m) [.key "content"]) ++
          FormatMemoryForInjection bs)) ∧
      (∀ k, k ≠ "content" → Result.Get (some m2) [.key k] = Result.Get (some m) [.key k])) ∨
    (∃ (bs : List MemoryBlock) (msgs values : List JSON),
      fetched = .ok bs ∧ bs ≠ [] ∧
      gjsonGetBytes body [.key "messages"] = some (.arr msgs) ∧
      findSystemIndex raw msgs 0 = none ∧ msgs.mapM marshalValue = some values ∧
      gjsonGetBytes (injectFetched raw marshalValue fetched body) [.key "messages"] =
        some (.arr (systemMsg (FormatMemoryForInjection bs) :: values))) := by
  cases fetched with
  | error e => exact Or.inl rfl
  | ok bs =>
    by_cases hbs : bs = []
    · subst hbs
      exact Or.inl rfl
    · by_cases harr : Result.IsArray (gjsonGetBytes body [.key "messages"]) = true
      · obtain ⟨msgs, hmsgs⟩ := isArray_eq_some _ harr
        obtain ⟨wrap, members, hw, hbody, hlook⟩ := messages_array_is_obj body msgs hmsgs
        cases hidx : findSystemIndex raw msgs 0 with
        | some i =>
          obtain ⟨_, m, hm, hrole, _⟩ := findSystemIndex_some raw msgs 0 i hidx
          simp only [Nat.sub_zero] at hm
          obtain ⟨mm, hmm⟩ := hasRole_is_obj raw "system" m (by decide) hrole
          subst hmm
          refine Or.inr (Or.inl ⟨bs, msgs, i, .obj mm,
            .obj (putMember "content" (.str (Result.String raw (lookupMember "content" mm) ++
              FormatMemoryForInjection bs)) mm), rfl, hbs, hmsgs, hidx, hm, ?_, ?_, ?_⟩)
          · rw [hbody, injectFetched_system raw marshalValue bs wrap hw members mm msgs i hbs
              hlook hidx hm, gjsonGetBytes_obj_key wrap hw, get_nil]
            exact lookupMember_replace_self "messages" _ members (by simp [hlook])
          · rw [get_cons_some, get_nil, child_obj, get_cons_some, get_nil, child_obj]
            simp only [Seg.name]
            exact lookupMember_putMember_self "content" _ mm
          · intro k hk
            rw [get_cons_some, get_nil, child_obj, get_cons_some, get_nil, child_obj]
            simp only [Seg.name]
            exact lookupMember_putMember_of_ne "content" k _ mm hk
        | none =>
          cases hmv : msgs.mapM marshalValue with
          | none =>
            exact Or.inl (injectFetched_marshal_fails raw marshalValue bs body msgs hmsgs hidx
              hmv)
          | some values =>
            refine Or.inr (Or.inr ⟨bs, msgs, values, rfl, hbs, hmsgs, hidx, hmv, ?_⟩)
            rw [hbody, injectFetched_prepend raw marshalValue bs wrap hw members msgs values
              hbs hlook hidx hmv, gjsonGetBytes_obj_key wrap hw, get_nil]
            exact lookupMember_replace_self "messages" _ members (by simp [hlook])
      · left
        have harr2 : Result.IsArray (gjsonGetBytes body [.key "messages"]) = false := by
          simpa using harr
        have hlen : bs.length ≠ 0 := fun h0 => hbs (List.length_eq_zero.mp h0)
        unfold injectFetched
        simp [hlen, harr2]

/-- C3, as amended: for every input body and every fetch outcome, the output
of `injectMemoryIntoRequest` is valid JSON exactly when the input is, every
top-level field other than `messages` has the same value as in the input, and
the output is one of three things: the input itself; the input in which, in
the first system message, the content has become the old content followed by
the memory (the other members of that message, the other messages and the
place of each message as before); or the input in which `messages` has become
the new system message followed by the original messages as the JSON library
writes them again. -/
theorem injectMemoryIntoRequest_changes_messages_only
    (raw : JSON → String) (marshalValue : JSON → Option JSON) (http : Http) (client : Client)
    (body : Body) :
    (injectMemoryIntoRequest raw marshalValue http client body).1.isValidJSON
      = body.isValidJSON ∧
    (∀ k, k ≠ "messages" →
      gjsonGetBytes (injectMemoryIntoRequest raw marshalValue http client body).1 [.key k] =
        gjsonGetBytes body [.key k]) ∧
    ((injectMemoryIntoRequest raw marshalValue http client body).1 = body ∨
     (∃ (bs : List MemoryBlock) (msgs : List JSON) (i : Nat) (m m2 : JSON),
      (client.GetMemory raw http).1 = .ok bs ∧ bs ≠ [] ∧
      gjsonGetBytes body [.key "messages"] = some (.arr msgs) ∧
      findSystemIndex raw msgs 0 = some i ∧ msgs[i]? = some m ∧
      gjsonGetBytes (injectMemoryIntoRequest raw marshalValue http client body).1
        [.key "messages"] = some (.arr (msgs.set i m2)) ∧
      Result.Get (some m2) [.key "content"] =
        some (.str (Result.String raw (Result.Get (some m) [.key "content"]) ++
          FormatMemoryForInjection bs)) ∧
      (∀ k, k ≠ "content" → Result.Get (some m2) [.key k] = Result.Get (some m) [.key k])) ∨
     (∃ (bs : List MemoryBlock) (msgs values : List JSON),
      (client.GetMemory raw http).1 = .ok bs ∧ bs ≠ [] ∧
      gjsonGetBytes body [.key "messages"] = some (.arr msgs) ∧
      findSystemIndex raw msgs 0 = none ∧ msgs.mapM marshalValue = some values ∧
      gjsonGetBytes (injectMemoryIntoRequest raw marshalValue http client body).1
        [.key "messages"] = some (.arr (systemMsg (FormatMemoryForInjection bs) :: values))))
    := by
  rw [injectMemoryIntoRequest_fst]
  refine ⟨?_, ?_, injectFetched_structure raw marshalValue (client.GetMemory raw http).1 body⟩
  · rcases injectFetched_cases raw marshalValue (client.GetMemory raw http).1 body with h | h
    · rw [h]
    · obtain ⟨rest, value, hset⟩ := h
      exact (sjsonSetBytes_frame body _ "messages" rest value hset).1
  · rcases injectFetched_cases raw marshalValue (client.GetMemory raw http).1 body with h | h
    · rw [h]
      exact fun _ _ => rfl
    · obtain ⟨rest, value, hset⟩ := h
      exact (sjsonSetBytes_frame body _ "messages" rest value hset).2

/-- C3, at a sample input: the body with a system message is valid JSON, and
so is the body returned for it, with its `model` field as before. -/
theorem injectMemoryIntoRequest_changes_messages_only_witness :
    bodyWithSystem.isValidJSON = true ∧
    (injectMemoryIntoRequest noRaw (goMarshalValue (float64Text some)) sampleHttp sampleClient
      bodyWithSystem).1.isValidJSON = true ∧
    gjsonGetBytes (injectMemoryIntoRequest noRaw (goMarshalValue (float64Text some)) sampleHttp
      sampleClient bodyWithSystem).1 [.key "model"] = some (.str "gpt") :=
  ⟨rfl,
    (injectMemoryIntoRequest_changes_messages_only noRaw (goMarshalValue (float64Text some))
      sampleHttp sampleClient bodyWithSystem).1.trans rfl,
    ((injectMemoryIntoRequest_changes_messages_only noRaw (goMarshalValue (float64Text some))
      sampleHttp sampleClient bodyWithSystem).2.1 "model" (by decide)).trans rfl⟩

/-- C3 as stated fails, twice.  An empty request body, met while the memory
service cannot be reached, is returned as it came, and it is not valid JSON.
And where a system message is prepended, the output differs from the input in
more than that message: the user message written `role`, `content` in the
input stands in the output as `content`, `role`. -/
theorem injectMemoryIntoRequest_output_not_valid_nor_single_change :
    (¬ ((injectMemoryIntoRequest noRaw (goMarshalValue (float64Text some)) downHttp
      sampleClient (.text [])).1.isValidJSON = true)) ∧
    gjsonGetBytes bodyWithoutSystem [.key "messages", .idx 2] =
      some (.obj [("role", .str "user"), ("content", .str "bye")]) ∧
    gjsonGetBytes
      (injectMemoryIntoRequest noRaw (goMarshalValue (float64Text some)) sampleHttp
        sampleClient bodyWithoutSystem).1 [.key "messages", .idx 3] =
      some (.obj [("content", .str "bye"), ("role", .str "user")]) :=
  ⟨by decide, rfl, rfl⟩

/-! ### UTF-8: decoding what was encoded -/

theorem u8_or (a b : UInt8) : (a ||| b).toNat = a.toNat ||| b.toNat := BitVec.toNat_or _ _
theorem u8_and (a b : UInt8) : (a &&& b).toNat = a.toNat &&& b.toNat := BitVec.toNat_and _ _
theorem u32_toUInt8 (v : UInt32) : v.toUInt8.toNat = v.toNat % 256 := BitVec.toNat_ofNat _ _
theorem u32_shr6 (v : UInt32) : (v >>> 6).toNat = v.toNat / 64 := by
  show (v.toBitVec >>> (UInt32.mod 6 32).toBitVec).toNat = _
  rw [BitVec.ushiftRight_eq', BitVec.toNat_ushiftRight, Nat.shiftRight_eq_div_pow]
  rfl
theorem u32_shr12 (v : UInt32) : (v >>> 12).toNat = v.toNat / 4096 := by
  show (v.toBitVec >>> (UInt32.mod 12 32).toBitVec).toNat = _
  rw [BitVec.ushiftRight_eq', BitVec.toNat_ushiftRight, Nat.shiftRight_eq_div_pow]
  rfl
theorem u32_shr18 (v : UInt32) : (v >>> 18).toNat = v.toNat / 262144 := by
  show (v.toBitVec >>> (UInt32.mod 18 32).toBitVec).toNat = _
  rw [BitVec.ushiftRight_eq', BitVec.toNat_ushiftRight, Nat.shiftRight_eq_div_pow]
  rfl

set_option maxRecDepth 100000 in
theorem mask_cont : ∀ x, x < 256 → (x &&& 63 ||| 128) = 128 + x % 64 := by decide
set_option maxRecDepth 100000 in
theorem mask_lead2 : ∀ x, x < 256 → (x &&& 31 ||| 192) = 192 + x % 32 := by decide
set_option maxRecDepth 100000 in
theorem mask_lead3 : ∀ x, x < 256 → (x &&& 15 ||| 224) = 224 + x % 16 := by decide
set_option maxRecDepth 100000 in
theorem mask_lead4 : ∀ x, x < 256 → (x &&& 7 ||| 240) = 240 + x % 8 := by decide

theorem cont_byte (v : UInt32) : (v.toUInt8 &&& 0x3f ||| 0x80).toNat = 128 + v.toNat % 64 := by
  rw [u8_or, u8_and, u32_toUInt8]
  have := mask_cont (v.toNat % 256) (Nat.mod_lt _ (by decide))
  show (v.toNat % 256 &&& 63 ||| 128) = _
  rw [this]
  omega

theorem lead2_byte (v : UInt32) :
    ((v >>> 6).toUInt8 &&& 0x1f ||| 0xc0).toNat = 192 + (v.toNat / 64) % 32 := by
  rw [u8_or, u8_and, u32_toUInt8, u32_shr6]
  have := mask_lead2 (v.toNat / 64 % 256) (Nat.mod_lt _ (by decide))
  show (v.toNat / 64 % 256 &&& 31 ||| 192) = _
  rw [this]
  omega

theorem cont6_byte (v : UInt32) :
    ((v >>> 6).toUInt8 &&& 0x3f ||| 0x80).toNat = 128 + (v.toNat / 64) % 64 := by
  rw [u8_or, u8_and, u32_toUInt8, u32_shr6]
  have := mask_cont (v.toNat / 64 % 256) (Nat.mod_lt _ (by decide))
  show (v.toNat / 64 % 256 &&& 63 ||| 128) = _
  rw [this]
  omega

theorem cont12_byte (v : UInt32) :
    ((v >>> 12).toUInt8 &&& 0x3f ||| 0x80).toNat = 128 + (v.toNat / 4096) % 64 := by
  rw [u8_or, u8_and, u32_toUInt8, u32_shr12]
  have := mask_cont (v.toNat / 4096 % 256) (Nat.mod_lt _ (by decide))
  show (v.toNat / 4096 % 256 &&& 63 ||| 128) = _
  rw [this]
  omega

theorem lead3_byte (v : UInt32) :
    ((v >>> 12).toUInt8 &&& 0x0f ||| 0xe0).toNat = 224 + (v.toNat / 4096) % 16 := by
  rw [u8_or, u8_and, u32_toUInt8, u32_shr12]
  have := mask_lead3 (v.toNat / 4096 % 256) (Nat.mod_lt _ (by decide))
  show (v.toNat / 4096 % 256 &&& 15 ||| 224) = _
  rw [this]
  omega

theorem lead4_byte (v : UInt32) :
    ((v >>> 18).toUInt8 &&& 0x07 ||| 0xf0).toNat = 240 + (v.toNat / 262144) % 8 := by
  rw [u8_or, u8_and, u32_toUInt8, u32_shr18]
  have := mask_lead4 (v.toNat / 262144 % 256) (Nat.mod_lt _ (by decide))
  show (v.toNat / 262144 % 256 &&& 7 ||| 240) = _
  rw [this]
  omega

theorem decodeRune_encode (c : Char) (tail : Bytes) :
    decodeRune (String.utf8EncodeChar c ++ tail) = some (c, (String.utf8EncodeChar c).length) := by
  have hvalid : c.val.toNat < 0xd800 ∨ (0xdfff < c.val.toNat ∧ c.val.toNat < 0x110000) := c.valid
  have hof : Char.ofNat c.val.toNat = c := Char.ofNat_toNat c
  unfold String.utf8EncodeChar
  simp only []
  by_cases h1 : c.val ≤ 0x7f
  · have h1n : c.val.toNat ≤ 127 := h1
    have hb0 : (c.val.toUInt8).toNat = c.val.toNat := by rw [u32_toUInt8]; omega
    have hlt : c.val.toNat < 128 := by omega
    simp only [h1, if_true, List.cons_append, List.nil_append, decodeRune, hb0, hlt, hof,
      List.length_singleton]
  · have h1n : ¬ c.val.toNat ≤ 127 := h1
    by_cases h2 : c.val ≤ 0x7ff
    · have h2n : c.val.toNat ≤ 2047 := h2
      have hb0 := lead2_byte c.val
      have hb1 := cont_byte c.val
      have c1 : ¬ (192 + c.val.toNat / 64 % 32 < 128) := by omega
      have c2 : 194 ≤ 192 + c.val.toNat / 64 % 32 ∧ 192 + c.val.toNat / 64 % 32 ≤ 223 := by omega
      have c3 : 128 ≤ 128 + c.val.toNat % 64 ∧ 128 + c.val.toNat % 64 ≤ 191 := by omega
      have e1 : (192 + c.val.toNat / 64 % 32 - 192) * 64 + (128 + c.val.toNat % 64 - 128)
          = c.val.toNat := by omega
      simp only [h1, h2, if_true, if_false, List.cons_append, List.nil_append, decodeRune,
        isContinuation, hb0, hb1, c1, c2, c3, e1, hof, and_self, decide_True, List.length_cons,
        List.length_nil]
    · have h2n : ¬ c.val.toNat ≤ 2047 := h2
      by_cases h3 : c.val ≤ 0xffff
      · have h3n : c.val.toNat ≤ 65535 := h3
        have hb0 := lead3_byte c.val
        have hb1 := cont6_byte c.val
        have hb2 := cont_byte c.val
        have c1 : ¬ (224 + c.val.toNat / 4096 % 16 < 128) := by omega
        have c2 : ¬ (194 ≤ 224 + c.val.toNat / 4096 % 16 ∧
            224 + c.val.toNat / 4096 % 16 ≤ 223) := by omega
        have c3 : 224 ≤ 224 + c.val.toNat / 4096 % 16 ∧
            224 + c.val.toNat / 4096 % 16 ≤ 239 := by omega
        have c4 : (if 224 + c.val.toNat / 4096 % 16 = 224 then 160 else 128)
              ≤ 128 + c.val.toNat / 64 % 64 ∧
            128 + c.val.toNat / 64 % 64
              ≤ (if 224 + c.val.toNat / 4096 % 16 = 237 then 159 else 191) := by
          split_ifs <;> omega
        have c5 : 128 ≤ 128 + c.val.toNat % 64 ∧ 128 + c.val.toNat % 64 ≤ 191 := by omega
        have e1 : (224 + c.val.toNat / 4096 % 16 - 224) * 4096 +
            (128 + c.val.toNat / 64 % 64 - 128) * 64 + (128 + c.val.toNat % 64 - 128)
            = c.val.toNat := by omega
        simp only [h1, h2, h3, if_true, if_false, List.cons_append, List.nil_append, decodeRune,
          isContinuation, hb0, hb1, hb2, c1, c2, c3, c4, c5, e1, hof, and_self, decide_True,
          List.length_cons, List.length_nil]
      · have h3n : ¬ c.val.toNat ≤ 65535 := h3
        have hb0 := lead4_byte c.val
        have hb1 := cont12_byte c.val
        have hb2 := cont6_byte c.val
        have hb3 := cont_byte c.val
        have c1 : ¬ (240 + c.val.toNat / 262144 % 8 < 128) := by omega
        have c2 : ¬ (194 ≤ 240 + c.val.toNat / 262144 % 8 ∧
            240 + c.val.toNat / 262144 % 8 ≤ 223) := by omega
        have c3 : ¬ (224 ≤ 240 + c.val.toNat / 262144 % 8 ∧
            240 + c.val.toNat / 262144 % 8 ≤ 239) := by omega
        have c4 : 240 ≤ 240 + c.val.toNat / 262144 % 8 ∧
            240 + c.val.toNat / 262144 % 8 ≤ 244 := by omega
        have c5 : (if 240 + c.val.toNat / 262144 % 8 = 240 then 144 else 128)
              ≤ 128 + c.val.toNat / 4096 % 64 ∧
            128 + c.val.toNat / 4096 % 64
              ≤ (if 240 + c.val.toNat / 262144 % 8 = 244 then 143 else 191) := by
          split_ifs <;> omega
        have c6 : 128 ≤ 128 + c.val.toNat / 64 % 64 ∧ 128 + c.val.toNat / 64 % 64 ≤ 191 := by
          omega
        have c7 : 128 ≤ 128 + c.val.toNat % 64 ∧ 128 + c.val.toNat % 64 ≤ 191 := by omega
        have e1 : (240 + c.val.toNat / 262144 % 8 - 240) * 262144 +
            (128 + c.val.toNat / 4096 % 64 - 128) * 4096 +
            (128 + c.val.toNat / 64 % 64 - 128) * 64 + (128 + c.val.toNat % 64 - 128)
            = c.val.toNat := by omega
        simp only [h1, h2, h3, if_true, if_false, List.cons_append, List.nil_append, decodeRune,
          isContinuation, hb0, hb1, hb2, hb3, c1, c2, c3, c4, c5, c6, c7, e1, hof, and_self,
          decide_True, List.length_cons, List.length_nil]

theorem decodeRunes_encode (cs : List Char) :
    ∀ fuel, (cs.flatMap String.utf8EncodeChar).length ≤ fuel →
      decodeRunes fuel (cs.flatMap String.utf8EncodeChar) = cs := by
  induction cs with
  | nil =>
    intro fuel _
    cases fuel <;> rfl
  | cons c rest ih =>
    intro fuel hfuel
    have hpos : 0 < (String.utf8EncodeChar c).length := by
      rw [String.length_utf8EncodeChar]
      exact Char.utf8Size_pos c
    simp only [List.flatMap_cons, List.length_append] at hfuel ⊢
    cases fuel with
    | zero => omega
    | succ f =>
      have hdec := decodeRune_encode c (rest.flatMap String.utf8EncodeChar)
      cases henc : String.utf8EncodeChar c with
      | nil =>
        rw [henc] at hpos
        simp at hpos
      | cons b tl =>
        rw [henc] at hdec hfuel
        simp only [List.cons_append] at hdec ⊢
        simp only [decodeRunes, hdec]
        have hdrop : (b :: (tl ++ rest.flatMap String.utf8EncodeChar)).drop (b :: tl).length
            = rest.flatMap String.utf8EncodeChar := by
          rw [← List.cons_append]
          exact List.drop_left _ _
        rw [hdrop, ih f (by simp only [List.length_cons] at hfuel; omega)]

theorem jsonString_goBytes (s : String) : jsonString (goBytes s) = s := by
  unfold jsonString goBytes
  rw [decodeRunes_encode s.data _ (Nat.le_refl _)]

theorem goBytes_append (s t : String) : goBytes (s ++ t) = goBytes s ++ goBytes t := by
  simp [goBytes, String.data_append, List.flatMap_append]

/-! ### The memory update -/

/-- C11, as amended: for an enabled configuration with a non-empty agent id
whose update URL `http.NewRequestWithContext` accepts, and every pair of
strings that `truncate` does not cut inside a character (the truncated bytes
are the UTF-8 encoding of texts `tu` and `ta`), `UpdateMemory` hands exactly
one request to the HTTP client: a POST to
`ServerURL + "/v1/agents/" + AgentID + "/messages"`, of content type
`application/json`, whose JSON body is the object with the one member
`messages`, an array of one message, of role `user` and content
`[Memory Update] User asked: ` + `tu` + `\n\nAssistant responded (summary): `
+ `ta`.  When the configuration is disabled or the agent id is empty it
returns no error and issues no request. -/
theorem updateMemory_posts_one_summary (http : Http) (c : Client)
    (userMessage assistantResponse tu ta : String) :
    (c.config.Enabled = true → c.config.AgentID ≠ "" →
      http.urlError (c.config.ServerURL ++ "/v1/agents/" ++ c.config.AgentID ++ "/messages")
        = none →
      truncate (goBytes userMessage) 500 = goBytes tu →
      truncate (goBytes assistantResponse) 1000 = goBytes ta →
      (c.UpdateMemory http userMessage assistantResponse).2 =
        [{ Method := "POST",
           URL := c.config.ServerURL ++ "/v1/agents/" ++ c.config.AgentID ++ "/messages",
           Header := [("Content-Type", "application/json")],
           Payload := some (.obj [("messages", .arr [.obj
             [("content", .str ("[Memory Update] User asked: " ++ tu ++
                "\n\nAssistant responded (summary): " ++ ta)),
              ("role", .str "user")]])]) }]) ∧
    (c.config.Enabled = false ∨ c.config.AgentID = "" →
      c.UpdateMemory http userMessage assistantResponse = (none, [])) := by
  constructor
  · intro hen hagent hurl hu ha
    have hsummary : jsonString (goBytes "[Memory Update] User asked: " ++
        truncate (goBytes userMessage) 500 ++
        goBytes "\n\nAssistant responded (summary): " ++
        truncate (goBytes assistantResponse) 1000) =
        "[Memory Update] User asked: " ++ tu ++ "\n\nAssistant responded (summary): " ++ ta := by
      rw [hu, ha, ← goBytes_append, ← goBytes_append, ← goBytes_append, jsonString_goBytes]
    have huser : jsonString (goBytes "user") = "user" := jsonString_goBytes "user"
    have hpayload : jsonMarshalPayload
        { messages := [[("role", goBytes "user"),
          ("content", goBytes "[Memory Update] User asked: " ++
            truncate (goBytes userMessage) 500 ++
            goBytes "\n\nAssistant responded (summary): " ++
            truncate (goBytes assistantResponse) 1000)]] } =
        .obj [("messages", .arr [.obj
          [("content", .str ("[Memory Update] User asked: " ++ tu ++
              "\n\nAssistant responded (summary): " ++ ta)),
           ("role", .str "user")]])] := by
      simp only [jsonMarshalPayload, List.map_cons, List.map_nil, hsummary, huser]
      rfl
    unfold Client.UpdateMemory
    simp only [hen, Bool.not_true, Bool.false_or, beq_iff_eq, hagent, if_false, hurl, hpayload]
    cases http.Do _ <;> rfl
  · intro h
    exact updateMemory_without_agent http c userMessage assistantResponse h

/-- C11, at sample inputs: the sample client posts one request to the agent
of the sample server, and the client without agent id none. -/
theorem updateMemory_posts_one_summary_witness :
    truncate (goBytes "héllo") 500 = goBytes "héllo" ∧
    ((sampleClient.UpdateMemory sampleHttp "héllo" "ok").2).map (fun r => (r.Method, r.URL))
      = [("POST", "http://localhost:8283/v1/agents/agent-1/messages")] ∧
    clientWithoutAgent.UpdateMemory sampleHttp "héllo" "ok" = (none, []) :=
  ⟨by decide,
    by
      rw [(updateMemory_posts_one_summary sampleHttp sampleClient "héllo" "ok" "héllo" "ok").1
        rfl (by decide) rfl (by decide) (by decide)]
      rfl,
    (updateMemory_posts_one_summary sampleHttp clientWithoutAgent "héllo" "ok" "" "").2
      (Or.inr rfl)⟩

set_option maxRecDepth 1000000 in
/-- C11 as stated fails.  An enabled configuration with an agent id, whose
server URL the URL parser refuses, makes `UpdateMemory` return the error of
`http.NewRequestWithContext` without issuing any request.  And for the user
message `a` followed by 250 times `é` the cut at 500 bytes leaves the first
byte of an `é` alone (the defect of C9), for which the JSON body carries U+FFFD: the content
posted is not the text before the cut followed by the ellipsis. -/
theorem updateMemory_issues_nothing_for_refused_url :
    clientWithBadURL.config.Enabled = true ∧ clientWithBadURL.config.AgentID ≠ "" ∧
    clientWithBadURL.UpdateMemory strictHttp "hi" "ok"
      = (some "invalid character in host name", []) ∧
    (truncate (goBytes accentedMessage) 500).drop 497 = [0xC3, 0xA9, 0xC3, 0x2E, 0x2E, 0x2E] ∧
    ((sampleClient.UpdateMemory sampleHttp accentedMessage "ok").2).map (fun r => r.Payload)
      = [some (.obj [("messages", .arr [.obj
          [("content", .str ("[Memory Update] User asked: " ++
              String.mk ('a' :: List.replicate 249 'é') ++ String.mk [Char.ofNat 0xFFFD] ++
              "..." ++ "\n\nAssistant responded (summary): " ++ "ok")),
           ("role", .str "user")]])])] := by
  refine ⟨rfl, by decide, rfl, by decide, ?_⟩
  rfl

end Letta
